import Mathlib

/-!
Verification development for `update_policy_news.py` (visa-policy-feed).

Python strings are modelled as lists of Unicode code points (`List Nat`);
Python's `str` comparison, slicing and concatenation correspond to the list
operations used below.  The parts of `urllib.parse` that the script calls
(`urlsplit`, `urlunsplit`, `parse_qsl`, `urlencode` with its default
`quote_plus`/`unquote_plus` quoting, `urlparse`-based host/path accessors)
are embedded following CPython's implementation; `\t`, `\r`, `\n` scrubbing
and the IPv6-bracket `ValueError` of `urlsplit` are included, while the
Unicode-only checks (IDNA/NFKC validation) are outside the model.  Case
mapping and whitespace are modelled at the ASCII level, which is exact for
ASCII data.
-/

namespace VPF

abbrev PyStr := List Nat

def lit (s : String) : PyStr := s.data.map Char.toNat

/-- ASCII lowercase of one code point (models `str.lower` on ASCII data). -/
def pyLower1 (c : Nat) : Nat := if 65 ≤ c && c ≤ 90 then c + 32 else c

def pyLower (s : PyStr) : PyStr := s.map pyLower1

/-- Whitespace as stripped by `str.strip()` (ASCII part). -/
def isPyWs (c : Nat) : Bool :=
  c = 32 || c = 9 || c = 10 || c = 13 || c = 11 || c = 12

def pyStrip (s : PyStr) : PyStr :=
  ((s.dropWhile isPyWs).reverse.dropWhile isPyWs).reverse

/-- Model of `str.rstrip("/")`. -/
def rstripSlash (s : PyStr) : PyStr :=
  (s.reverse.dropWhile (fun c => c = 47)).reverse

/-- Python `sub in s` substring containment. -/
def substrContains (s sub : PyStr) : Bool :=
  (List.range (s.length + 1)).any fun i => sub.isPrefixOf (s.drop i)

/-- Model of `str.partition(sep)` restricted to a one-character separator:
returns the text before and after the first occurrence, when there is one. -/
def splitOnce (sep : Nat) : PyStr → Option (PyStr × PyStr)
  | [] => none
  | c :: cs =>
    if c = sep then some ([], cs)
    else
      match splitOnce sep cs with
      | some (a, b) => some (c :: a, b)
      | none => none

/-- Model of `str.split(sep)` for a one-character separator. -/
def splitAllOn (sep : Nat) : PyStr → List PyStr
  | [] => [[]]
  | c :: cs =>
    let r := splitAllOn sep cs
    if c = sep then [] :: r
    else
      match r with
      | h :: t => (c :: h) :: t
      | [] => [[c]]

def joinSep (sep : Nat) : List PyStr → PyStr
  | [] => []
  | [x] => x
  | x :: xs => x ++ sep :: joinSep sep xs

/-- Split at the first occurrence of `sep`, keeping the whole string in the
first component when `sep` does not occur. -/
def splitAtChar (sep : Nat) (u : PyStr) : PyStr × PyStr :=
  match splitOnce sep u with
  | some ab => ab
  | none => (u, [])

def pyRfind (c : Nat) (s : PyStr) : Option Nat :=
  match s.reverse.findIdx? (fun d => d = c) with
  | some k => some (s.length - 1 - k)
  | none => none

def findFrom (c : Nat) (s : PyStr) (start : Nat) : Option Nat :=
  match (s.drop start).findIdx? (fun d => d = c) with
  | some k => some (start + k)
  | none => none

/-! ## UTF-8 and percent-quoting (CPython `urllib.parse` quoting helpers) -/

/-- UTF-8 encoding of one code point (valid scalar values give the standard
encoding; the script's data never leaves that range). -/
def u8encode1 (c : Nat) : List Nat :=
  if c < 128 then [c]
  else if c < 2048 then [192 + c / 64, 128 + c % 64]
  else if c < 65536 then [224 + c / 4096, 128 + (c / 64) % 64, 128 + c % 64]
  else [240 + c / 262144, 128 + (c / 4096) % 64, 128 + (c / 64) % 64, 128 + c % 64]

def uREPL : Nat := 65533

def isContByte (b : Nat) : Bool := 128 ≤ b && b ≤ 191

/-- Incremental UTF-8 decoder state: accumulated value and continuation
bytes still expected. -/
abbrev U8St := Option (Nat × Nat)

def u8lead (b : Nat) : List Nat × U8St :=
  if b < 128 then ([b], none)
  else if 194 ≤ b && b ≤ 223 then ([], some (b - 192, 1))
  else if 224 ≤ b && b ≤ 239 then ([], some (b - 224, 2))
  else if 240 ≤ b && b ≤ 244 then ([], some (b - 240, 3))
  else ([uREPL], none)

def u8step (st : U8St) (b : Nat) : List Nat × U8St :=
  match st with
  | none => u8lead b
  | some (v, k) =>
    if isContByte b then
      if k = 1 then ([v * 64 + (b - 128)], none)
      else ([], some (v * 64 + (b - 128), k - 1))
    else
      let (o, st') := u8lead b
      (uREPL :: o, st')

def u8flush : U8St → List Nat
  | some _ => [uREPL]
  | none => []

def u8dstep (acc : PyStr × U8St) (b : Nat) : PyStr × U8St :=
  (acc.1 ++ (u8step acc.2 b).1, (u8step acc.2 b).2)

/-- Decode a byte run as UTF-8 with replacement on errors (models
`bytes.decode("utf-8", errors="replace")` up to the exact replacement
count on malformed input, which the script never produces itself). -/
def u8decode (bs : List Nat) : PyStr :=
  let p := bs.foldl u8dstep ([], none)
  p.1 ++ u8flush p.2

def hexUp (n : Nat) : Nat := if n < 10 then 48 + n else 55 + n

def hexVal (c : Nat) : Option Nat :=
  if 48 ≤ c && c ≤ 57 then some (c - 48)
  else if 65 ≤ c && c ≤ 70 then some (c - 55)
  else if 97 ≤ c && c ≤ 102 then some (c - 87)
  else none

def pctEncByte (b : Nat) : PyStr := [37, hexUp (b / 16), hexUp (b % 16)]

/-- Characters `quote` never escapes (letters, digits, `_.-~`). -/
def isAlwaysSafe (c : Nat) : Bool :=
  (48 ≤ c && c ≤ 57) || (65 ≤ c && c ≤ 90) || (97 ≤ c && c ≤ 122) ||
  c = 95 || c = 46 || c = 45 || c = 126

/-- Model of `urllib.parse.quote_plus` with `safe=''` (the `urlencode`
default): safe characters pass through, space becomes `+`, everything else
is percent-encoded as UTF-8 bytes with uppercase hex. -/
def quotePlus (s : PyStr) : PyStr :=
  s.flatMap fun c =>
    if isAlwaysSafe c then [c]
    else if c = 32 then [43]
    else (u8encode1 c).flatMap pctEncByte

/-- Tokens of `unquote`: literal characters and percent-decoded bytes. -/
inductive QTok where
  | chr (c : Nat) : QTok
  | byte (b : Nat) : QTok
deriving DecidableEq

/-- Scanner state of the percent parser: `none` — normal; `some none` —
just saw `%`; `some (some h)` — saw `%` followed by hex digit `h`. -/
abbrev QSt := Option (Option Nat)

def qtokFlush : QSt → List QTok
  | none => []
  | some none => [.chr 37]
  | some (some h1) => [.chr 37, .chr h1]

def qtokStep (acc : List QTok × QSt) (c : Nat) : List QTok × QSt :=
  match acc.2 with
  | none =>
    if c = 37 then (acc.1, some none) else (acc.1 ++ [.chr c], none)
  | some none =>
    match hexVal c with
    | some _ => (acc.1, some (some c))
    | none =>
      if c = 37 then (acc.1 ++ [.chr 37], some none)
      else (acc.1 ++ [.chr 37, .chr c], none)
  | some (some h1) =>
    match hexVal h1, hexVal c with
    | some a, some b => (acc.1 ++ [.byte (16 * a + b)], none)
    | _, _ =>
      if c = 37 then (acc.1 ++ [.chr 37, .chr h1], some none)
      else (acc.1 ++ [.chr 37, .chr h1, .chr c], none)

/-- Percent-scanner of `unquote`: `%XX` with two hex digits yields a byte,
any other `%` is literal. -/
def qtokenize (s : PyStr) : List QTok :=
  let p := s.foldl qtokStep ([], none)
  p.1 ++ qtokFlush p.2

def unqStep (acc : PyStr × U8St) : QTok → PyStr × U8St
  | .byte b => u8dstep acc b
  | .chr c => (acc.1 ++ u8flush acc.2 ++ [c], none)

def unqTokens (ts : List QTok) : PyStr :=
  let p := ts.foldl unqStep ([], none)
  p.1 ++ u8flush p.2

def plusToSpace (s : PyStr) : PyStr := s.map fun c => if c = 43 then 32 else c

/-- Model of `urllib.parse.unquote_plus` (UTF-8, `errors="replace"`). -/
def unquotePlus (s : PyStr) : PyStr := unqTokens (qtokenize (plusToSpace s))

/-! ## parse_qsl / urlencode -/

/-- Model of `urllib.parse.parse_qsl(qs, keep_blank_values=True)`:
split on `&`, drop empty pieces, split each piece at its first `=`
(missing value becomes the empty string), unquote names and values. -/
def parseQsl (qs : PyStr) : List (PyStr × PyStr) :=
  (splitAllOn 38 qs).filterMap fun piece =>
    if piece = [] then none
    else
      match splitOnce 61 piece with
      | some (a, b) => some (unquotePlus a, unquotePlus b)
      | none => some (unquotePlus piece, unquotePlus [])

/-- Model of `urllib.parse.urlencode` on a pair list (default quoting). -/
def urlencodeL (params : List (PyStr × PyStr)) : PyStr :=
  joinSep 38 (params.map fun kv => quotePlus kv.1 ++ 61 :: quotePlus kv.2)

/-! ## urlsplit / urlunsplit -/

structure SplitRes where
  scheme : PyStr
  netloc : PyStr
  path : PyStr
  query : PyStr
  fragment : PyStr
deriving DecidableEq

def isAsciiAlpha (c : Nat) : Bool := (65 ≤ c && c ≤ 90) || (97 ≤ c && c ≤ 122)

def isSchemeChar (c : Nat) : Bool :=
  isAsciiAlpha c || (48 ≤ c && c ≤ 57) || c = 43 || c = 45 || c = 46

/-- Bytes `urlsplit` removes anywhere in the URL (`\t`, `\r`, `\n`). -/
def scrubUrl (s : PyStr) : PyStr := s.filter fun c => !(c = 9 || c = 13 || c = 10)

/-- WHATWG C0-control-or-space set that `urlsplit` lstrips. -/
def isC0OrSpace (c : Nat) : Bool := c ≤ 32

/-- Schemes for which `urlunsplit` re-introduces a `//` (CPython
`uses_netloc`, nonempty entries; the empty string in that list is dead in
`urlunsplit` because of the `scheme and ...` truthiness guard). -/
def uses_netloc : List PyStr :=
  [lit "ftp", lit "http", lit "gopher", lit "nntp", lit "telnet", lit "imap",
   lit "wais", lit "file", lit "mms", lit "https", lit "shttp", lit "snews",
   lit "prospero", lit "rtsp", lit "rtsps", lit "rtspu", lit "rsync", lit "svn",
   lit "svn+ssh", lit "sftp", lit "nfs", lit "git", lit "git+ssh", lit "ws",
   lit "wss"]

/-- Scheme extraction of `urlsplit`: a leading ASCII letter followed by
scheme characters up to the first `:`; the scheme is lowercased. -/
def schemeSplit (u : PyStr) : PyStr × PyStr :=
  match splitOnce 58 u with
  | none => ([], u)
  | some (pre, post) =>
    match pre with
    | [] => ([], u)
    | c0 :: rest =>
      if isAsciiAlpha c0 && rest.all isSchemeChar then (pyLower (c0 :: rest), post)
      else ([], u)

/-- `_splitnetloc`: the netloc runs until the first `/`, `?` or `#`. -/
def takeNetloc : PyStr → PyStr × PyStr
  | [] => ([], [])
  | c :: cs =>
    if c = 47 || c = 63 || c = 35 then ([], c :: cs)
    else
      let p := takeNetloc cs
      (c :: p.1, p.2)

/-- The netloc step of `urlsplit`: a netloc is parsed only after a
leading `//`. -/
def netlocSplit (u2 : PyStr) : PyStr × PyStr :=
  if u2.take 2 = [47, 47] then takeNetloc (u2.drop 2)
  else ([], u2)

/-- The mismatched-IPv6-bracket test of `urlsplit`. -/
def bracketBad (nl : PyStr) : Bool :=
  (nl.contains 91 && !nl.contains 93) || (nl.contains 93 && !nl.contains 91)

/-- Model of `urllib.parse.urlsplit` (CPython 3.11, default arguments):
lstrip C0-controls and spaces, remove `\t\r\n`, split off scheme, netloc,
fragment and query; the modelled exception is the `ValueError` raised on
mismatched IPv6 brackets in the netloc (the bracketed-host address
validation and the non-ASCII netloc NFKC check are outside the model). -/
def urlsplitE (uIn : PyStr) : Except Unit SplitRes :=
  let u1 := scrubUrl (uIn.dropWhile isC0OrSpace)
  let sp := schemeSplit u1
  let np := netlocSplit sp.2
  if bracketBad np.1 then
    .error ()
  else
    let fp := splitAtChar 35 np.2
    let qp := splitAtChar 63 fp.1
    .ok ⟨sp.1, np.1, qp.1, qp.2, fp.2⟩

/-- Model of `urllib.parse.urlunsplit` (CPython 3.11): the `//` is
re-introduced when the netloc is nonempty, or when the scheme is a
netloc-using scheme and the path does not already start with `//`. -/
def urlunsplit (r : SplitRes) : PyStr :=
  let url := r.path
  let url :=
    if r.netloc ≠ [] ||
       (r.scheme ≠ [] && uses_netloc.contains r.scheme && url.take 2 ≠ [47, 47]) then
      47 :: 47 :: r.netloc ++ (if url ≠ [] && url.take 1 ≠ [47] then 47 :: url else url)
    else url
  let url := if r.scheme ≠ [] then r.scheme ++ 58 :: url else url
  let url := if r.query ≠ [] then url ++ 63 :: r.query else url
  let url := if r.fragment ≠ [] then url ++ 35 :: r.fragment else url
  url

/-! ## normalize_url -/

def isTrackingKey (k : PyStr) : Bool :=
  let kl := pyLower k
  (lit "utm_").isPrefixOf kl ||
  [lit "_hsenc", lit "_hsmi", lit "fbclid", lit "gclid", lit "mc_cid", lit "mc_eid"].contains kl

/-- The query parameters `normalize_url` keeps (tracking keys dropped). -/
def keptParams (q : PyStr) : List (PyStr × PyStr) :=
  (parseQsl q).filter fun kv => !isTrackingKey kv.1

/-- The path rewrite of `normalize_url`:
`s.path.rstrip("/") if s.path not in ("", "/") else s.path`. -/
def pathNorm (p : PyStr) : PyStr :=
  if p = [] || p = [47] then p else rstripSlash p

/-- Embedding of `normalize_url`: strip the input, split the URL, drop
tracking query parameters, lowercase the netloc, strip a trailing slash
from a non-root path, re-assemble without the fragment; on a parse error
return the stripped input (the `except` branch). -/
def normalize_url (u : PyStr) : PyStr :=
  let t := pyStrip u
  match urlsplitE t with
  | .error _ => t
  | .ok s =>
    urlunsplit ⟨s.scheme, pyLower s.netloc, pathNorm s.path,
                urlencodeL (keptParams s.query), []⟩

/-- Does the string end in a whitespace character? -/
def hasTrailingWs (s : PyStr) : Bool :=
  match s.reverse with
  | [] => false
  | c :: _ => isPyWs c

/-- Precondition of the amended idempotence statement for `normalize_url`:
the stripped input either fails to parse (so the exception fallback runs),
or parses to a URL with a nonempty network location whose normalized form
carries no trailing whitespace. -/
def normalizeIdemPreB (u : PyStr) : Bool :=
  u.all (fun c => c < 1114112) &&
  match urlsplitE (pyStrip u) with
  | .error _ => true
  | .ok s => s.netloc ≠ [] && !hasTrailingWs (normalize_url u)

/-- Per-character expansion of `plusToSpace ∘ quotePlus` (proof support). -/
def pcExpand (c : Nat) : PyStr :=
  if isAlwaysSafe c then [c]
  else if c = 32 then [32]
  else (u8encode1 c).flatMap pctEncByte

/-- Per-character token expansion of the quoted text (proof support). -/
def tokExpand (c : Nat) : List QTok :=
  if isAlwaysSafe c then [.chr c]
  else if c = 32 then [.chr 32]
  else (u8encode1 c).map .byte

/-- Reachable-state invariant of the incremental UTF-8 decoder: the value
accumulated so far can never decode beyond `0x13FFFF` (proof support). -/
def u8stOK : U8St → Prop
  | none => True
  | some (v, k) => (k = 1 ∧ v ≤ 20479) ∨ (k = 2 ∧ v ≤ 319) ∨ (k = 3 ∧ v ≤ 4)

/-- Bound carried by `unquote` tokens: literal characters stay below
`0x140000`, decoded bytes below 256 (proof support). -/
def tokOK : QTok → Prop
  | .chr c => c < 1310720
  | .byte b => b < 256

/-- Bound on the character remembered by the percent-scanner state
(proof support). -/
def qstOK : QSt → Prop
  | some (some h) => h < 1310720
  | _ => True

/-- The character alphabet `urlencode` emits: always-safe characters,
`&`, `=`, `+` and `%` (proof support). -/
def qcharOK (c : Nat) : Bool :=
  isAlwaysSafe c || c = 38 || c = 61 || c = 43 || c = 37

/-! ## Regular expressions

The script's keyword patterns all have the form `\b( alt1 | alt2 | ... )\b`
with `re.I`, where each alternative is a finite concatenation of literal
characters, character classes (`[sd]`, `[- ]`, `\s`, `\d`, `[a-z]`) and
optional/`\s+` pieces.  They are embedded as a small regular-expression
AST with a Brzozowski-derivative matcher, and `search` tries every
substring whose endpoints satisfy the `\b` word-boundary condition.
Case-insensitivity is modelled by lowercasing the subject (the patterns
below are written lowercase), exact for ASCII. -/

inductive Rx where
  | nul : Rx
  | eps : Rx
  | cls (cs : List Nat) : Rx
  | seq (a b : Rx) : Rx
  | alt (a b : Rx) : Rx
  | star (r : Rx) : Rx
deriving DecidableEq

def Rx.nullable : Rx → Bool
  | .nul => false
  | .eps => true
  | .cls _ => false
  | .seq a b => a.nullable && b.nullable
  | .alt a b => a.nullable || b.nullable
  | .star _ => true

def mkAlt (a b : Rx) : Rx :=
  if a = .nul then b else if b = .nul then a else .alt a b

def mkSeq (a b : Rx) : Rx :=
  if a = .nul || b = .nul then .nul
  else if a = .eps then b
  else if b = .eps then a
  else .seq a b

def Rx.deriv (r : Rx) (c : Nat) : Rx :=
  match r with
  | .nul => .nul
  | .eps => .nul
  | .cls cs => if cs.contains c then .eps else .nul
  | .seq a b =>
    if a.nullable then mkAlt (mkSeq (a.deriv c) b) (b.deriv c)
    else mkSeq (a.deriv c) b
  | .alt a b => mkAlt (a.deriv c) (b.deriv c)
  | .star r => mkSeq (r.deriv c) (.star r)

/-- Word characters for `\b` (`\w`: ASCII letters, digits, underscore). -/
def isWordCh (c : Nat) : Bool :=
  (48 ≤ c && c ≤ 57) || (65 ≤ c && c ≤ 90) || (97 ≤ c && c ≤ 122) || c = 95

def wordAt (s : PyStr) (i : Nat) : Bool :=
  match s.drop i with
  | [] => false
  | c :: _ => isWordCh c

/-- Word boundary between positions `i-1` and `i` (string edges count as
non-word). -/
def boundaryAt (s : PyStr) (i : Nat) : Bool :=
  (if i = 0 then false else wordAt s (i - 1)) != wordAt s i

/-- Does some prefix of `rest` (ending at a word boundary of `s`) match
`r`?  `j` is the absolute position of the start of `rest` in `s`. -/
def scanHit (s : PyStr) : Rx → PyStr → Nat → Bool
  | r, [], j => r.nullable && boundaryAt s j
  | r, c :: cs, j =>
    if r = .nul then false
    else (r.nullable && boundaryAt s j) || scanHit s (r.deriv c) cs (j + 1)

/-- Model of `RX.search(blob)` for a pattern `\b(r)\b` compiled with
`re.I`: some substring of the lowercased blob, delimited by word
boundaries, belongs to the language of `r`. -/
def rxSearch (r : Rx) (blob : PyStr) : Bool :=
  let t := pyLower blob
  (List.range (t.length + 1)).any fun i =>
    boundaryAt t i && scanHit t r (t.drop i) i

def scanPlain : PyStr → Rx → Bool
  | [], r => r.nullable
  | c :: cs, r =>
    if r = .nul then false
    else r.nullable || scanPlain cs (r.deriv c)

/-- Model of `RX.search(s)` for a boundary-free pattern compiled with
`re.I`. -/
def rxSearchPlain (r : Rx) (s : PyStr) : Bool :=
  let t := pyLower s
  (List.range (t.length + 1)).any fun i => scanPlain (t.drop i) r

/-! ### Pattern-building helpers -/

def rlit (s : String) : Rx :=
  (lit s).foldr (fun c acc => Rx.seq (Rx.cls [c]) acc) Rx.eps

def ropt (r : Rx) : Rx := Rx.alt r Rx.eps

def raltL : List Rx → Rx
  | [] => Rx.nul
  | [r] => r
  | r :: rs => Rx.alt r (raltL rs)

def rseqL : List Rx → Rx
  | [] => Rx.eps
  | [r] => r
  | r :: rs => Rx.seq r (rseqL rs)

/-- The `\s` class (ASCII part). -/
def wsCls : Rx := Rx.cls [32, 9, 10, 13, 12, 11]

/-- One-or-more whitespace, `\s+`. -/
def wsPlus : Rx := Rx.seq wsCls (Rx.star wsCls)

/-- The `\d` class. -/
def digitCls : Rx := Rx.cls ((List.range 10).map (· + 48))

/-- The `[a-z]` class (with `re.I` the subject is lowercased first). -/
def azCls : Rx := Rx.cls ((List.range 26).map (· + 97))

/-! ### Lexicons (the alternation bodies of the `\b(...)\b` patterns) -/

/-- Alternation body of `CORE_RX`. -/
def CORE_RX : Rx := raltL
  [rlit "visa", rlit "visas", rlit "student visa", rlit "study permit",
   rlit "immigration", rlit "graduate route",
   rseqL [rlit "post", ropt (Rx.cls [45, 32]), rlit "study"],
   rlit "psw", rlit "opt", rlit "pgwp",
   rseqL [rlit "subclass", ropt (Rx.alt wsCls (Rx.cls [45])), rlit "500"],
   rseqL [rlit "subclass", ropt (Rx.alt wsCls (Rx.cls [45])), rlit "485"],
   rlit "temporary graduate", rlit "f-1", rlit "j-1", rlit "ukvi",
   rlit "ircc", rlit "uscis",
   Rx.seq (rlit "sponsor") (ropt (rlit "s")), rlit "sponsorship"]

/-- Alternation body of `ACTIONS_RX`. -/
def ACTIONS_RX : Rx := raltL
  [Rx.seq (rlit "propose") (ropt (Rx.cls [115, 100])),
   Rx.seq (rlit "introduce") (ropt (Rx.cls [115, 100])),
   Rx.seq (rlit "cap") (ropt (Rx.alt (rlit "ped") (rlit "s"))),
   Rx.seq (rlit "limit") (ropt (raltL [rlit "ed", rlit "s", rlit "ing"])),
   Rx.seq (rlit "ban") (ropt (Rx.alt (rlit "ned") (rlit "s"))),
   Rx.seq (rlit "restrict") (ropt (raltL [rlit "ed", rlit "ion", rlit "s"])),
   Rx.seq (rlit "grant") (ropt (Rx.alt (rlit "s") (rlit "ed"))),
   Rx.seq (rlit "issuance") (ropt (rlit "s")),
   rlit "processing", rlit "backlog",
   rseqL [rlit "fast", ropt (rlit "-"), rlit "track"],
   Rx.seq (rlit "update") (ropt (rlit "d")), rlit "update",
   Rx.seq (rlit "change") (ropt (Rx.cls [115, 100])),
   Rx.seq (rlit "fall") (ropt (Rx.alt (rlit "s") (rlit "ing"))),
   Rx.seq (rlit "rise") (ropt (Rx.cls [115, 110])),
   Rx.seq (rlit "increase") (ropt (Rx.cls [115, 100])),
   Rx.seq (rlit "decrease") (ropt (Rx.cls [115, 100])),
   Rx.seq (rlit "strengthen") (ropt (Rx.alt (rlit "ing") (rlit "ed"))),
   Rx.seq (rlit "tighten") (ropt (Rx.alt (rlit "ed") (rlit "ing")))]

/-- Alternation body of `COUNTRY_RX` (lowercased; `re.I` makes the
original uppercase alternatives match case-insensitively). -/
def COUNTRY_RX : Rx := raltL
  [rlit "us", rlit "u.s.", rlit "united states", rlit "uk", rlit "u.k.",
   rlit "united kingdom", rlit "britain", rlit "british", rlit "canada",
   rlit "canadian", rlit "australia", rlit "australian", rlit "home office",
   rlit "ircc", rlit "uscis", rlit "ukvi", rlit "taiwan", rlit "taipei"]

/-- Alternation body of `IMPACT_RX`. -/
def IMPACT_RX : Rx := raltL
  [Rx.seq (rlit "international student") (ropt (rlit "s")),
   Rx.seq (rlit "overseas student") (ropt (rlit "s")),
   Rx.seq (rlit "foreign student") (ropt (rlit "s")),
   rseqL [rlit "graduate", ropt (rlit "s"),
          ropt (rseqL [wsPlus,
                       raltL [rlit "mobility", rlit "employment", rlit "outcomes",
                              Rx.seq (rlit "returnee") (ropt (rlit "s"))]])],
   rseqL [rlit "post", ropt (Rx.cls [45, 32, 9, 10, 13, 12, 11]), rlit "study",
          ropt (rseqL [wsPlus, rlit "work"])],
   rlit "psw", rlit "opt", rlit "pgwp", rlit "temporary graduate", rlit "485",
   rlit "graduate route",
   rseqL [rlit "student", wsPlus,
          raltL [rlit "visa", rlit "visas", rlit "arrivals", rlit "grants",
                 rlit "applications", Rx.seq (rlit "permit") (ropt (rlit "s"))]],
   rseqL [rlit "study", wsPlus, rlit "permit", ropt (rlit "s")],
   rlit "higher education", rlit "he sector", rlit "university",
   rlit "universities", rlit "campus", rlit "international education",
   rlit "transnational education",
   Rx.seq (rlit "agent") (ropt (rlit "s")),
   rseqL [rlit "recruitment agent", ropt (rlit "s")]]

/-- Alternation body of `EXCLUDES_RX`. -/
def EXCLUDES_RX : Rx := raltL
  [rlit "celebrity", rlit "restaurant", rlit "football", rlit "cricket",
   rlit "movie", rlit "tv show", rlit "tourism only", rlit "property prices",
   rlit "ipo"]

/-! ## Hosts, whitelist and guards -/

def MEDIA_HOSTS : List PyStr :=
  [lit "monitor.icef.com", lit "thepienews.com", lit "www.idp.com",
   lit "idp.com", lit "www.taiwannews.com.tw", lit "taiwannews.com.tw"]

def GOV_HOSTS : List PyStr :=
  [lit "gov.uk", lit "homeoffice.gov.uk", lit "ukvi.homeoffice.gov.uk",
   lit "canada.ca", lit "cic.gc.ca", lit "uscis.gov", lit "state.gov",
   lit "travel.state.gov", lit "immi.homeaffairs.gov.au",
   lit "homeaffairs.gov.au", lit "education.gov.au", lit "trade.gov",
   lit "dhs.gov", lit "cbp.gov", lit "moe.gov.tw", lit "immigration.gov.tw",
   lit "boca.gov.tw"]

def ALLOWED_HOSTS : List PyStr := MEDIA_HOSTS ++ GOV_HOSTS

def URL_WHITELIST_RAW : List PyStr :=
  [lit "https://www.gov.uk/government/publications/register-of-licensed-sponsors-workers",
   lit "https://thepienews.com/us-trump-pauses-new-student-visa-interviews/",
   lit "https://thepienews.com/july-sees-drastic-fall-in-us-student-visa-arrivals/",
   lit "https://www.dhs.gov/news/2025/08/27/trump-administration-proposes-new-rule-end-foreign-student-visa-abuse",
   lit "https://www.taiwannews.com.tw/news/6190827"]

def URL_WHITELIST : List PyStr := URL_WHITELIST_RAW.map normalize_url

/-- Embedding of `_host`: `urlparse(url).netloc.lower()`, empty on error. -/
def pyHost (url : PyStr) : PyStr :=
  match urlsplitE url with
  | .ok s => pyLower s.netloc
  | .error _ => []

/-- CPython `_splitparams`, as applied by `urlparse` to the path: drop a
`;params` suffix of the last path segment. -/
def splitParamsPath (p : PyStr) : PyStr :=
  let i? :=
    if p.contains 47 then
      match pyRfind 47 p with
      | some j => findFrom 59 p j
      | none => findFrom 59 p 0
    else findFrom 59 p 0
  match i? with
  | some i => p.take i
  | none => p

/-- Embedding of `_path`: `urlparse(url).path or "/"`, `"/"` on error. -/
def pyPath (url : PyStr) : PyStr :=
  match urlsplitE url with
  | .ok s =>
    let p := splitParamsPath s.path
    if p = [] then [47] else p
  | .error _ => [47]

def hostSuffixMatch (h d : PyStr) : Bool := h = d || (46 :: d).isSuffixOf h

/-- Embedding of `_allowed`. -/
def pyAllowed (url : PyStr) : Bool :=
  let h := pyHost url
  ALLOWED_HOSTS.any fun d => hostSuffixMatch h d

/-- The `PATH_ALLOW` gate patterns (boundary-free searches). -/
def PATH_ALLOW : List (PyStr × List Rx) :=
  [(lit "monitor.icef.com",
    [rseqL [Rx.cls [47], digitCls, digitCls, digitCls, digitCls,
            Rx.cls [47], digitCls, digitCls, Rx.cls [47]]]),
   (lit "idp.com",
    [rlit "/blog/",
     rseqL [Rx.cls [47], azCls, azCls, rlit "/blog/"]])]

/-- Embedding of `_path_allowed`. -/
def pyPathAllowed (url : PyStr) : Bool :=
  let h := pyHost url
  let gates := ((PATH_ALLOW.find? fun e => e.1 = h).map Prod.snd).getD []
  if gates = [] then true
  else
    let p := pyPath url
    gates.any fun rx => rxSearchPlain rx p

/-! ## like_examples -/

def isGovHost (host : PyStr) : Bool :=
  GOV_HOSTS.any fun d => hostSuffixMatch host d

/-- Embedding of `like_examples`: whitelist first, then the exclusion,
core and impact gates on the `title summary` blob, then the
government/media branch. -/
def like_examples (title summary link : PyStr) : Bool :=
  let nlink := normalize_url link
  if URL_WHITELIST.contains nlink then true
  else
    let blob := title ++ 32 :: summary
    if rxSearch EXCLUDES_RX blob then false
    else if !rxSearch CORE_RX blob then false
    else if !rxSearch IMPACT_RX blob then false
    else
      let host := pyHost nlink
      let is_gov := isGovHost host
      let has_action := rxSearch ACTIONS_RX blob
      let has_country :=
        rxSearch COUNTRY_RX blob || substrContains (pyLower blob) (lit "sponsor")
      if is_gov then true else has_action || has_country

/-! ## Text utilities -/

def squashWsGo (prevWs : Bool) : PyStr → PyStr
  | [] => []
  | c :: cs =>
    if isPyWs c then (if prevWs then [] else [32]) ++ squashWsGo true cs
    else c :: squashWsGo false cs

/-- Model of `re.sub(r"\s+", " ", s)`: collapse whitespace runs. -/
def squashWs (s : PyStr) : PyStr := squashWsGo false s

/-- Embedding of `clean_text`: map `\n`/`\r` to spaces, collapse
whitespace runs, strip. -/
def clean_text (s : PyStr) : PyStr :=
  let s1 := s.map fun c => if c = 10 || c = 13 then 32 else c
  pyStrip (squashWs s1)

/-- Python `str.rfind(sub)`: highest start index of `sub`, `-1` if absent. -/
def pyRfindSub (sub s : PyStr) : Int :=
  match (List.range (s.length + 1)).reverse.find? (fun i => sub.isPrefixOf (s.drop i)) with
  | some i => (i : Int)
  | none => -1

/-- Embedding of `smart_excerpt`. -/
def smart_excerpt (text : PyStr) (limit : Nat) : PyStr :=
  let t := clean_text text
  if t.length ≤ limit then t
  else
    let cut := t.take limit
    let last := max (pyRfindSub (lit ". ") cut)
      (max (pyRfindSub (lit "! ") cut) (pyRfindSub (lit "? ") cut))
    if 40 < last then cut.take (last.toNat + 1) ++ lit " …"
    else
      let sp := pyRfindSub (lit " ") cut
      (if 0 < sp then cut.take sp.toNat else cut) ++ lit " …"

/-! ## category_for -/

def CAT_PSW_RX : Rx := raltL
  [rlit "graduate route",
   rseqL [rlit "post", ropt (Rx.cls [45, 32]), rlit "study"],
   rlit "psw", rlit "opt", rlit "pgwp", rlit "temporary graduate", rlit "485"]

def CAT_SV_RX : Rx := raltL
  [rlit "student visa", rlit "study permit",
   rseqL [rlit "subclass", ropt (Rx.alt wsCls (Rx.cls [45])), rlit "500"],
   rlit "f-1", rlit "j-1"]

def CAT_SPONSOR_RX : Rx := raltL
  [rlit "licensed sponsor", rlit "sponsor", rlit "sponsorship"]

def CAT_PROC_RX : Rx := raltL
  [rlit "arrivals", rlit "grants", rlit "processing",
   Rx.seq (rlit "issuance") (ropt (rlit "s")), rlit "backlog"]

/-- Embedding of `category_for` (first-match-wins on the lowercased blob). -/
def category_for (title summary : PyStr) : PyStr :=
  let b := pyLower (title ++ 32 :: summary)
  if rxSearch CAT_PSW_RX b then lit "Post-Study Work"
  else if rxSearch CAT_SV_RX b then lit "Student Visas"
  else if rxSearch CAT_SPONSOR_RX b then lit "Sponsorship"
  else if rxSearch CAT_PROC_RX b then lit "Processing & Grants"
  else lit "Policy Update"

/-! ## Items and feed entries

Dates are modelled as ISO `YYYY-MM-DD` strings, on which Python's
`date` comparison agrees with lexicographic string comparison; the
network-dependent date resolvers `entry_datetime` (feed metadata) and
`best_article_datetime` (page scrape / Last-Modified) are abstracted as
the `entryDt` and `artDt` oracle fields of an entry, and
`extract_gov_links(http_get(link))` as `pageGovLinks`. -/

structure Item where
  date : PyStr
  category : PyStr
  headline : PyStr
  description : PyStr
  source : PyStr
  url : PyStr
  gov_sources : List PyStr
deriving DecidableEq

structure Entry where
  title : PyStr
  link : Option PyStr
  summary : PyStr
  entryDt : Option PyStr
  artDt : Option PyStr
  pageGovLinks : List PyStr
deriving DecidableEq

/-- Lexicographic strict comparison of code-point strings (Python `<`). -/
def lexLt : PyStr → PyStr → Bool
  | [], [] => false
  | [], _ :: _ => true
  | _ :: _, [] => false
  | a :: as, b :: bs => a < b || (a = b && lexLt as bs)

def lexLe (s t : PyStr) : Bool := lexLt s t || s = t

/-- Embedding of `within_window`: `bool(dt and dt.date() >= WINDOW_FROM)`;
`wf` is `WINDOW_FROM` as an ISO date string. -/
def within_window (wf : PyStr) (dt : Option PyStr) : Bool :=
  match dt with
  | none => false
  | some d => lexLe wf d

/-- Combined date resolution `entry_datetime(e) or best_article_datetime(link)`. -/
def resolvedDt (e : Entry) : Option PyStr :=
  match e.entryDt with
  | some d => some d
  | none => e.artDt

/-- Embedding of the per-entry body of `items_from_feed` (the loop over
`entries`); `now` is `NOW_UTC`'s date as an ISO string. -/
def processFeedEntry (wf now : PyStr) (e : Entry) : Option Item :=
  let title := clean_text e.title
  let link := normalize_url (pyStrip (e.link.getD []))
  if title = [] || link = [] then none
  else if !pyAllowed link || !pyPathAllowed link then none
  else
    let dt0 := resolvedDt e
    let dt := if URL_WHITELIST.contains link && dt0 = none then some now else dt0
    if !within_window wf dt then none
    else
      let summary := clean_text e.summary
      if !URL_WHITELIST.contains link && !like_examples title summary link then none
      else
        some { date := dt.getD []
               category := category_for title summary
               headline := title.take 200
               description := smart_excerpt summary 260
               source := pyHost link
               url := link
               gov_sources :=
                 if MEDIA_HOSTS.contains (pyHost link) then e.pageGovLinks else [] }

/-- Embedding of the per-entry body of `items_from_govuk_search` (the
inner loop over a page's entries, after the page-window check). -/
def processGovukSearchEntry (wf now : PyStr) (e : Entry) : Option Item :=
  let title := clean_text e.title
  let link := normalize_url (pyStrip (e.link.getD []))
  if title = [] || link = [] || !pyAllowed link then none
  else
    let dt0 := resolvedDt e
    let dt := if URL_WHITELIST.contains link && dt0 = none then some now else dt0
    if !within_window wf dt then none
    else
      let summary := clean_text e.summary
      if !like_examples title summary link then none
      else
        some { date := dt.getD []
               category := category_for title summary
               headline := title.take 200
               description := smart_excerpt summary 260
               source := pyHost link
               url := link
               gov_sources :=
                 if GOV_HOSTS.contains (pyHost link) then [link] else [] }

/-- The kept-items loop of `items_from_feed` over a list of entries. -/
def items_from_feed_entries (wf now : PyStr) (es : List Entry) : List Item :=
  es.filterMap (processFeedEntry wf now)

/-! ## Feed fetching (fetch_feed_once) -/

/-- Result of one `feedparser.parse` call. -/
structure ParseRes where
  bozo : Bool
  entries : List Entry
deriving DecidableEq

/-- Result of one `requests.get` call (`text` is abstracted: its reparse
is the `parse2` oracle below). -/
structure HttpRes where
  status : Nat
deriving DecidableEq

instance {ε α : Type} [DecidableEq ε] [DecidableEq α] : DecidableEq (Except ε α) :=
  fun a b =>
    match a, b with
    | .error x, .error y =>
      if h : x = y then isTrue (by rw [h]) else isFalse (by intro hc; cases hc; exact h rfl)
    | .error _, .ok _ => isFalse (by intro h; cases h)
    | .ok _, .error _ => isFalse (by intro h; cases h)
    | .ok x, .ok y =>
      if h : x = y then isTrue (by rw [h]) else isFalse (by intro hc; cases hc; exact h rfl)

/-- Network oracle for one `fetch_feed_once` call: the primary parse, the
fallback GET and the reparse of its text, each possibly raising. -/
structure FeedWorld where
  parse1 : Except Unit ParseRes
  httpGet : Except Unit HttpRes
  parse2 : Except Unit ParseRes
deriving DecidableEq

/-- The body of the `try` block of `fetch_feed_once`: primary parse; on
`bozo` with no entries, a plain GET (`raise_for_status` throws on 4xx/5xx)
and a reparse of the raw text. -/
def fetch_feed_once_aux (w : FeedWorld) : Except Unit (List Entry) := do
  let fp ← w.parse1
  if fp.bozo && fp.entries = [] then
    let r ← w.httpGet
    if 400 ≤ r.status && r.status < 600 then throw ()
    else
      let fp2 ← w.parse2
      pure fp2.entries
  else
    pure fp.entries

/-- Embedding of `fetch_feed_once`: any exception inside the body is
caught and turned into an empty entry list. -/
def fetch_feed_once (w : FeedWorld) : List Entry :=
  match fetch_feed_once_aux w with
  | .ok l => l
  | .error _ => []

/-! ## Pagination (paginate_wp_feed / paginate_atom)

The per-page fetch results are abstracted as an oracle `pages : Nat →
List Entry` giving the entries of `fetch_feed_once(page_url(i))`. -/

/-- The date-based stop test as literally written in the source:
`dates and all(d and d.date() < WINDOW_FROM for d in dates if d)` —
entries with no parseable date are filtered out of the `all`. -/
def datesStop (wf : PyStr) (dates : List (Option PyStr)) : Bool :=
  (!dates.isEmpty) && dates.all fun d =>
    match d with
    | none => true
    | some x => lexLt x wf

def wpNewEntries (seen : List PyStr) (entries : List Entry) : List Entry :=
  entries.filter fun e =>
    match e.link with
    | none => true
    | some l => !seen.contains l

def wpAddSeen (seen : List PyStr) (new_entries : List Entry) : List PyStr :=
  seen ++ new_entries.filterMap fun e =>
    match e.link with
    | none => none
    | some l => if l = [] then none else some l

def paginate_wp_go (pages : Nat → List Entry) (wf : PyStr) :
    Nat → Nat → List PyStr → List Entry → List Entry
  | _, 0, _, acc => acc
  | i, fuel + 1, seen, acc =>
    let entries := pages i
    if entries = [] then acc
    else
      let new_entries := wpNewEntries seen entries
      let seen' := wpAddSeen seen new_entries
      if new_entries = [] then acc
      else
        let acc' := acc ++ new_entries
        if datesStop wf (new_entries.map Entry.entryDt) then acc'
        else paginate_wp_go pages wf (i + 1) fuel seen' acc'

/-- Embedding of `paginate_wp_feed` (pages `1..max_pages`). -/
def paginate_wp_feed (pages : Nat → List Entry) (wf : PyStr) (max_pages : Nat) :
    List Entry :=
  paginate_wp_go pages wf 1 max_pages [] []

def paginate_atom_go (pages : Nat → List Entry) (wf : PyStr) :
    Nat → Nat → List Entry → List Entry
  | _, 0, acc => acc
  | i, fuel + 1, acc =>
    let entries := pages i
    if entries = [] then acc
    else
      let acc' := acc ++ entries
      if datesStop wf (entries.map Entry.entryDt) then acc'
      else paginate_atom_go pages wf (i + 1) fuel acc'

/-- Embedding of `paginate_atom`. -/
def paginate_atom (pages : Nat → List Entry) (wf : PyStr) (max_pages : Nat) :
    List Entry :=
  paginate_atom_go pages wf 1 max_pages []

/-- Spec wording, as amended: a page stops pagination when every entry of
it that has a parseable date is dated strictly before the window start
(undated entries are ignored, so a nonempty page with no parseable dates
also stops). -/
def pageAllParseableOld (wf : PyStr) (es : List Entry) : Bool :=
  (!es.isEmpty) && es.all fun e =>
    match e.entryDt with
    | none => true
    | some d => lexLt d wf

/-- Spec wording, as stated by the claim: a page stops pagination when
every entry of it is dated strictly before the window start. -/
def pageAllDatedOld (wf : PyStr) (es : List Entry) : Bool :=
  es.all fun e =>
    match e.entryDt with
    | none => false
    | some d => lexLt d wf

def paginate_wp_amended_go (pages : Nat → List Entry) (wf : PyStr) :
    Nat → Nat → List PyStr → List Entry → List Entry
  | _, 0, _, acc => acc
  | i, fuel + 1, seen, acc =>
    let entries := pages i
    if entries = [] then acc
    else
      let new_entries := wpNewEntries seen entries
      let seen' := wpAddSeen seen new_entries
      if new_entries = [] then acc
      else
        let acc' := acc ++ new_entries
        if pageAllParseableOld wf new_entries then acc'
        else paginate_wp_amended_go pages wf (i + 1) fuel seen' acc'

/-- The amended-spec paginator for WordPress feeds. -/
def paginate_wp_amended (pages : Nat → List Entry) (wf : PyStr) (max_pages : Nat) :
    List Entry :=
  paginate_wp_amended_go pages wf 1 max_pages [] []

def paginate_atom_amended_go (pages : Nat → List Entry) (wf : PyStr) :
    Nat → Nat → List Entry → List Entry
  | _, 0, acc => acc
  | i, fuel + 1, acc =>
    let entries := pages i
    if entries = [] then acc
    else
      let acc' := acc ++ entries
      if pageAllParseableOld wf entries then acc'
      else paginate_atom_amended_go pages wf (i + 1) fuel acc'

/-- The amended-spec paginator for Atom feeds. -/
def paginate_atom_amended (pages : Nat → List Entry) (wf : PyStr) (max_pages : Nat) :
    List Entry :=
  paginate_atom_amended_go pages wf 1 max_pages []

def paginate_wp_claim_go (pages : Nat → List Entry) (wf : PyStr) :
    Nat → Nat → List PyStr → List Entry → List Entry
  | _, 0, _, acc => acc
  | i, fuel + 1, seen, acc =>
    let entries := pages i
    if entries = [] then acc
    else
      let new_entries := wpNewEntries seen entries
      let seen' := wpAddSeen seen new_entries
      if new_entries = [] then acc
      else
        let acc' := acc ++ new_entries
        if pageAllDatedOld wf new_entries then acc'
        else paginate_wp_claim_go pages wf (i + 1) fuel seen' acc'

/-- The paginator as described by claim C9 (stop only when every entry of
the page is dated and strictly older than the window start). -/
def paginate_wp_claim (pages : Nat → List Entry) (wf : PyStr) (max_pages : Nat) :
    List Entry :=
  paginate_wp_claim_go pages wf 1 max_pages [] []

/-! ## collect_items: sort, dedupe, window/domain safety -/

/-- The sort key of `collect_items`:
`(it["date"], it["headline"].strip().lower(), it["url"])`. -/
def sortKey (it : Item) : PyStr × PyStr × PyStr :=
  (it.date, pyLower (pyStrip it.headline), it.url)

/-- The claim's sort triple `(date, headline.lower(), url)` (no strip). -/
def claimKey (it : Item) : PyStr × PyStr × PyStr :=
  (it.date, pyLower it.headline, it.url)

/-- Lexicographic strict comparison of string triples (Python tuple `<`). -/
def keyLt3 (a b : PyStr × PyStr × PyStr) : Bool :=
  lexLt a.1 b.1 ||
    (a.1 = b.1 && (lexLt a.2.1 b.2.1 || (a.2.1 = b.2.1 && lexLt a.2.2 b.2.2)))

def insertDesc (x : Item) : List Item → List Item
  | [] => [x]
  | y :: ys =>
    if keyLt3 (sortKey x) (sortKey y) then y :: insertDesc x ys else x :: y :: ys

/-- Model of `all_items.sort(key=key, reverse=True)`: CPython's sort is
stable, and a stable descending sort is uniquely determined by the key
function and the input order, so this stable insertion sort computes the
same list as Timsort. -/
def sortDesc : List Item → List Item
  | [] => []
  | x :: xs => insertDesc x (sortDesc xs)

/-- The dedup key of `collect_items`:
`(it["headline"].strip().lower(), normalize_url(it["url"]))`. -/
def dedupKey (it : Item) : PyStr × PyStr :=
  (pyLower (pyStrip it.headline), normalize_url it.url)

/-- The dedup loop of `collect_items` (first occurrence wins). -/
def dedupGo (seen : List (PyStr × PyStr)) : List Item → List Item
  | [] => []
  | it :: rest =>
    if seen.contains (dedupKey it) then dedupGo seen rest
    else it :: dedupGo (dedupKey it :: seen) rest

/-- The redundant window/domain safety filter of `collect_items`: the
item's date string is compared with `WINDOW_FROM.isoformat()` and the URL
is re-checked against the host whitelist or the URL whitelist. -/
def safeItem (wf : PyStr) (it : Item) : Bool :=
  lexLe wf it.date &&
    (pyAllowed it.url || URL_WHITELIST.contains (normalize_url it.url))

/-- Embedding of the pure tail of `collect_items` (lines 716-734): sort
descending, dedupe, safety-filter; the gathered feed items are abstracted
as the input list. -/
def collect_items_core (wf : PyStr) (all_items : List Item) : List Item :=
  (dedupGo [] (sortDesc all_items)).filter (safeItem wf)

/-! ## Diversity caps, chunking and the writer -/

def PRIORITY_CAPS_HOSTS : List PyStr := [lit "monitor.icef.com", lit "thepienews.com"]

/-- Per-host cap `max(1, int(math.floor(total * 0.25)))`: multiplying by
the exact binary float `0.25` and flooring is exact division by 4 for any
realistic list size. -/
def capFor (total : Nat) : Nat := max 1 (total / 4)

def capsLoop (caps : List (PyStr × Nat)) (per : List (PyStr × Nat)) :
    List Item → List Item
  | [] => []
  | it :: rest =>
    match caps.find? (fun p => p.1 = it.source) with
    | none => it :: capsLoop caps per rest
    | some hc =>
      let c := ((per.find? fun p => p.1 = it.source).map Prod.snd).getD 0
      if c < hc.2 then it :: capsLoop caps ((it.source, c + 1) :: per) rest
      else capsLoop caps per rest

/-- Embedding of `apply_diversity_caps`. -/
def apply_diversity_caps (items : List Item) : List Item :=
  if items = [] then items
  else capsLoop (PRIORITY_CAPS_HOSTS.map fun h => (h, capFor items.length)) [] items

def chunkGo (size : Nat) : List Item → Nat → List (List Item)
  | _, 0 => []
  | [], _ + 1 => []
  | l, fuel + 1 => l.take size :: chunkGo size (l.drop size) fuel

/-- Embedding of `chunk`: `[lst[i:i+size] for i in range(0, len(lst),
size)]` (for a positive size; Python raises `ValueError` on size 0, which
never occurs — `PAGE_SIZE` defaults to 30). -/
def chunk (lst : List Item) (size : Nat) : List (List Item) :=
  if size = 0 then [] else chunkGo size lst lst.length

/-- The page contents computed by `write_paginated`: page 1 is the
diversity-capped list truncated to `page_size`; the remaining items
(whose normalized URLs are not on page 1) are chunked into further
pages. -/
def write_pages (items : List Item) (page_size : Nat) : List (List Item) :=
  let page1 := (apply_diversity_caps items).take page_size
  let remaining_urls := page1.map fun it => normalize_url it.url
  let rest := items.filter fun it => !remaining_urls.contains (normalize_url it.url)
  page1 :: chunk rest page_size

inductive OutFile where
  | page1File
  | pageN (i : Nat)
  | indexFile
deriving DecidableEq

/-- One performed file write: for page files `items` is the payload's
`policyNews` array; for the index file, the pages/page-size metadata. -/
structure WriteEvent where
  file : OutFile
  items : List Item
  pages_total : Nat
  page_size : Nat
deriving DecidableEq

abbrev FS := List (OutFile × WriteEvent)

/-- Embedding of `write_paginated` as the list of file writes it
performs.  The function never inspects `disk`: the script opens and
writes every output file unconditionally — its `sig` hash helper (line
324) is defined but never called anywhere, so no hash comparison gates
the writes. -/
def write_paginated_writes (disk : FS) (items : List Item) (page_size : Nat) :
    List WriteEvent :=
  let pages := write_pages items page_size
  let page1 := pages.headD []
  let other := pages.tail
  ({ file := .page1File, items := page1, pages_total := 0, page_size := page_size } ::
    other.enum.map fun ip =>
      { file := .pageN (ip.1 + 2), items := ip.2, pages_total := 0,
        page_size := page_size }) ++
  [{ file := .indexFile, items := [], pages_total := 1 + other.length,
     page_size := page_size }]

def applyWrites (disk : FS) (ws : List WriteEvent) : FS :=
  ws.foldl (fun d w => (w.file, w) :: d.filter fun e => e.1 != w.file) disk

/-- One run of the writer: the resulting disk state and the performed
writes. -/
def write_paginated_run (disk : FS) (items : List Item) (page_size : Nat) :
    FS × List WriteEvent :=
  (applyWrites disk (write_paginated_writes disk items page_size),
   write_paginated_writes disk items page_size)

/-! # Theorems -/

/-! ## Order and sorting lemmas -/

theorem lexLt_irrefl (s : PyStr) : lexLt s s = false := by
  induction s with
  | nil => rfl
  | cons a as ih => simp [lexLt, ih]

theorem lexLt_trans :
    ∀ {a b c : PyStr}, lexLt a b = true → lexLt b c = true → lexLt a c = true := by
  intro a
  induction a with
  | nil =>
    intro b c hab hbc
    cases b with
    | nil => simp [lexLt] at hab
    | cons b bs =>
      cases c with
      | nil => simp [lexLt] at hbc
      | cons c cs => rfl
  | cons a as ih =>
    intro b c hab hbc
    cases b with
    | nil => simp [lexLt] at hab
    | cons b bs =>
      cases c with
      | nil => simp [lexLt] at hbc
      | cons c cs =>
        simp only [lexLt, Bool.or_eq_true, Bool.and_eq_true, decide_eq_true_eq] at hab hbc ⊢
        rcases hab with h1 | ⟨h1, h1'⟩ <;> rcases hbc with h2 | ⟨h2, h2'⟩
        · exact Or.inl (Nat.lt_trans h1 h2)
        · exact Or.inl (h2 ▸ h1)
        · exact Or.inl (h1 ▸ h2)
        · exact Or.inr ⟨h1.trans h2, ih h1' h2'⟩

theorem lexLt_total : ∀ a b : PyStr, lexLt a b = true ∨ a = b ∨ lexLt b a = true := by
  intro a
  induction a with
  | nil =>
    intro b
    cases b with
    | nil => exact Or.inr (Or.inl rfl)
    | cons b bs => exact Or.inl rfl
  | cons a as ih =>
    intro b
    cases b with
    | nil => exact Or.inr (Or.inr rfl)
    | cons b bs =>
      rcases Nat.lt_trichotomy a b with h | h | h
      · exact Or.inl (by simp [lexLt, h])
      · rcases ih bs with h2 | h2 | h2
        · exact Or.inl (by simp [lexLt, h, h2])
        · exact Or.inr (Or.inl (by rw [h, h2]))
        · exact Or.inr (Or.inr (by simp [lexLt, h.symm, h2]))
      · exact Or.inr (Or.inr (by simp [lexLt, h]))

theorem keyLt3_irrefl (k : PyStr × PyStr × PyStr) : keyLt3 k k = false := by
  simp [keyLt3, lexLt_irrefl]

theorem keyLt3_trans {a b c : PyStr × PyStr × PyStr}
    (h1 : keyLt3 a b = true) (h2 : keyLt3 b c = true) : keyLt3 a c = true := by
  simp only [keyLt3, Bool.or_eq_true, Bool.and_eq_true, decide_eq_true_eq] at h1 h2 ⊢
  rcases h1 with h1 | ⟨e1, h1⟩
  · rcases h2 with h2 | ⟨e2, h2⟩
    · exact Or.inl (lexLt_trans h1 h2)
    · exact Or.inl (e2 ▸ h1)
  · rcases h2 with h2 | ⟨e2, h2⟩
    · exact Or.inl (e1 ▸ h2)
    · refine Or.inr ⟨e1.trans e2, ?_⟩
      rcases h1 with h1 | ⟨f1, h1⟩
      · rcases h2 with h2 | ⟨f2, h2⟩
        · exact Or.inl (lexLt_trans h1 h2)
        · exact Or.inl (f2 ▸ h1)
      · rcases h2 with h2 | ⟨f2, h2⟩
        · exact Or.inl (f1 ▸ h2)
        · exact Or.inr ⟨f1.trans f2, lexLt_trans h1 h2⟩

theorem keyLt3_total (a b : PyStr × PyStr × PyStr) :
    keyLt3 a b = true ∨ a = b ∨ keyLt3 b a = true := by
  obtain ⟨a1, a2, a3⟩ := a
  obtain ⟨b1, b2, b3⟩ := b
  rcases lexLt_total a1 b1 with h1 | h1 | h1
  · exact Or.inl (by simp [keyLt3, h1])
  · rcases lexLt_total a2 b2 with h2 | h2 | h2
    · exact Or.inl (by simp [keyLt3, h1, h2])
    · rcases lexLt_total a3 b3 with h3 | h3 | h3
      · exact Or.inl (by simp [keyLt3, h1, h2, h3])
      · exact Or.inr (Or.inl (by rw [h1, h2, h3]))
      · exact Or.inr (Or.inr (by simp [keyLt3, h1.symm, h2.symm, h3]))
    · exact Or.inr (Or.inr (by simp [keyLt3, h1.symm, h2]))
  · exact Or.inr (Or.inr (by simp [keyLt3, h1]))

theorem keyLt3_asymm {a b : PyStr × PyStr × PyStr}
    (h : keyLt3 a b = true) : keyLt3 b a = false := by
  by_contra hc
  simp only [Bool.not_eq_false] at hc
  have := keyLt3_trans h hc
  rw [keyLt3_irrefl] at this
  cases this

theorem keyLt3_false_trans {a b c : PyStr × PyStr × PyStr}
    (h1 : keyLt3 a b = false) (h2 : keyLt3 b c = false) : keyLt3 a c = false := by
  rcases keyLt3_total a b with hab | hab | hab
  · rw [hab] at h1; cases h1
  · rw [hab]; exact h2
  · rcases keyLt3_total b c with hbc | hbc | hbc
    · rw [hbc] at h2; cases h2
    · rw [← hbc]; exact keyLt3_asymm hab
    · exact keyLt3_asymm (keyLt3_trans hbc hab)

theorem mem_insertDesc {x z : Item} :
    ∀ l : List Item, z ∈ insertDesc x l ↔ z = x ∨ z ∈ l := by
  intro l
  induction l with
  | nil => simp [insertDesc]
  | cons y ys ih =>
    by_cases h : keyLt3 (sortKey x) (sortKey y) = true
    · simp only [insertDesc, h, if_true, List.mem_cons, ih]
      tauto
    · simp only [Bool.not_eq_true] at h
      simp only [insertDesc, h, Bool.false_eq_true, if_false, List.mem_cons]

theorem insertDesc_perm (x : Item) (l : List Item) :
    (insertDesc x l).Perm (x :: l) := by
  induction l with
  | nil => rfl
  | cons y ys ih =>
    by_cases h : keyLt3 (sortKey x) (sortKey y) = true
    · simp only [insertDesc, h, if_true]
      exact (List.Perm.cons y ih).trans (List.Perm.swap x y ys)
    · simp only [Bool.not_eq_true] at h
      simp only [insertDesc, h, Bool.false_eq_true, if_false]
      exact List.Perm.refl _

theorem sortDesc_perm (l : List Item) : (sortDesc l).Perm l := by
  induction l with
  | nil => rfl
  | cons x xs ih => exact (insertDesc_perm x (sortDesc xs)).trans (List.Perm.cons x ih)

theorem mem_sortDesc {z : Item} {l : List Item} : z ∈ sortDesc l ↔ z ∈ l :=
  (sortDesc_perm l).mem_iff

theorem pairwise_insertDesc (x : Item) :
    ∀ l : List Item,
      l.Pairwise (fun a b => keyLt3 (sortKey a) (sortKey b) = false) →
      (insertDesc x l).Pairwise (fun a b => keyLt3 (sortKey a) (sortKey b) = false) := by
  intro l
  induction l with
  | nil => intro _; simp [insertDesc]
  | cons y ys ih =>
    intro h
    rw [List.pairwise_cons] at h
    by_cases hxy : keyLt3 (sortKey x) (sortKey y) = true
    · simp only [insertDesc, hxy, if_true]
      rw [List.pairwise_cons]
      refine ⟨?_, ih h.2⟩
      intro z hz
      rcases (mem_insertDesc ys).mp hz with rfl | hz
      · exact keyLt3_asymm hxy
      · exact h.1 z hz
    · simp only [Bool.not_eq_true] at hxy
      simp only [insertDesc, hxy, Bool.false_eq_true, if_false]
      rw [List.pairwise_cons]
      refine ⟨?_, List.pairwise_cons.mpr h⟩
      intro z hz
      rcases hz with _ | hz
      · exact hxy
      · exact keyLt3_false_trans hxy (h.1 z (by assumption))

theorem sortDesc_sorted (l : List Item) :
    (sortDesc l).Pairwise (fun a b => keyLt3 (sortKey a) (sortKey b) = false) := by
  induction l with
  | nil => exact List.Pairwise.nil
  | cons x xs ih => exact pairwise_insertDesc x (sortDesc xs) ih

/-! ## Dedup lemmas -/

theorem dedupGo_sublist :
    ∀ (l : List Item) (seen : List (PyStr × PyStr)), (dedupGo seen l).Sublist l := by
  intro l
  induction l with
  | nil => intro seen; exact List.Sublist.refl []
  | cons it rest ih =>
    intro seen
    by_cases h : seen.contains (dedupKey it) = true
    · simp only [dedupGo, h, if_true]
      exact (ih seen).cons it
    · simp only [Bool.not_eq_true] at h
      simp only [dedupGo, h, Bool.false_eq_true, if_false]
      exact (ih (dedupKey it :: seen)).cons₂ it

theorem dedupGo_filter_key (k : PyStr × PyStr) :
    ∀ (l : List Item) (seen : List (PyStr × PyStr)),
      ((dedupGo seen l).filter fun it => dedupKey it = k) =
        if seen.contains k then []
        else (l.filter fun it => dedupKey it = k).take 1 := by
  intro l
  induction l with
  | nil =>
    intro seen
    by_cases h : seen.contains k = true <;> simp [dedupGo, h]
  | cons it rest ih =>
    intro seen
    by_cases hk : dedupKey it = k
    · subst hk
      by_cases hs : seen.contains (dedupKey it) = true
      · simp only [dedupGo, hs, if_true]
        rw [ih seen, hs]
        simp [hs]
      · simp only [Bool.not_eq_true] at hs
        simp only [dedupGo, hs, Bool.false_eq_true, if_false]
        rw [List.filter_cons_of_pos (by simp)]
        rw [ih (dedupKey it :: seen)]
        have hcontains : (dedupKey it :: seen).contains (dedupKey it) = true := by
          simp [List.contains_cons]
        rw [hcontains]
        simp [hs]
    · by_cases hs : seen.contains (dedupKey it) = true
      · simp only [dedupGo, hs, if_true]
        rw [ih seen, List.filter_cons_of_neg (by simpa using hk)]
      · simp only [Bool.not_eq_true] at hs
        simp only [dedupGo, hs, Bool.false_eq_true, if_false]
        rw [List.filter_cons_of_neg (by simpa using hk)]
        rw [List.filter_cons_of_neg (by simpa using hk)]
        rw [ih (dedupKey it :: seen)]
        have hne : (k == dedupKey it) = false := by
          by_contra hcon
          simp only [Bool.not_eq_false, beq_iff_eq] at hcon
          exact hk hcon.symm
        have hcc : (dedupKey it :: seen).contains k = seen.contains k := by
          simp only [List.contains_cons, hne, Bool.false_or]
        rw [hcc]

theorem dedupGo_keys_distinct :
    ∀ (l : List Item) (seen : List (PyStr × PyStr)),
      (∀ a ∈ dedupGo seen l, seen.contains (dedupKey a) = false) ∧
      (dedupGo seen l).Pairwise (fun a b => dedupKey a ≠ dedupKey b) := by
  intro l
  induction l with
  | nil => intro seen; exact ⟨nofun, List.Pairwise.nil⟩
  | cons it rest ih =>
    intro seen
    by_cases hs : seen.contains (dedupKey it) = true
    · simpa only [dedupGo, hs, if_true] using ih seen
    · simp only [Bool.not_eq_true] at hs
      simp only [dedupGo, hs, Bool.false_eq_true, if_false]
      obtain ⟨ihmem, ihpair⟩ := ih (dedupKey it :: seen)
      constructor
      · intro a ha
        rcases ha with _ | ha
        · exact hs
        · have := ihmem a (by assumption)
          simp only [List.contains_cons, Bool.or_eq_false_iff] at this
          exact this.2
      · rw [List.pairwise_cons]
        refine ⟨?_, ihpair⟩
        intro b hb hbk
        have := ihmem b hb
        simp only [List.contains_cons, Bool.or_eq_false_iff] at this
        have hbeq : (dedupKey b == dedupKey it) = false := this.1
        rw [← hbk] at hbeq
        simp at hbeq

/-! ## Safety-filter lemmas -/

theorem collect_eq_of_safe (wf : PyStr) (xs : List Item)
    (hsafe : ∀ it ∈ xs, safeItem wf it = true) :
    collect_items_core wf xs = dedupGo [] (sortDesc xs) := by
  unfold collect_items_core
  rw [List.filter_eq_self]
  intro a ha
  exact hsafe a (mem_sortDesc.mp ((dedupGo_sublist (sortDesc xs) []).mem ha))

/-- Claim C1, counterexample: the blob `"celebrity visa"` matches
`EXCLUDES_RX`, yet `like_examples` returns `true` for the whitelisted
Taiwan News link — the exclusion check does not run first and is
overridden by the URL whitelist. -/
theorem c1_counterexample :
    rxSearch EXCLUDES_RX (lit "celebrity" ++ 32 :: lit "visa") = true ∧
    like_examples (lit "celebrity") (lit "visa")
      (lit "https://www.taiwannews.com.tw/news/6190827") = true := by
  constructor
  · decide
  · decide

/-- Claim C1, amended: for every title and summary whose blob matches the
exclusion vocabulary `EXCLUDES_RX`, and whose link does not normalize into
the URL whitelist, `like_examples` returns `false`; for whitelisted links
the whitelist check precedes and overrides the exclusion check. -/
theorem c1_excludes_reject (title summary link : PyStr)
    (hwl : URL_WHITELIST.contains (normalize_url link) = false)
    (hex : rxSearch EXCLUDES_RX (title ++ 32 :: summary) = true) :
    like_examples title summary link = false := by
  have hwl' : normalize_url link ∉ URL_WHITELIST := by simpa using hwl
  unfold like_examples
  simp [hwl', hex]

/-- Claim C1 witness: the amended theorem applied at a concrete
non-whitelisted link and excluded blob. -/
theorem c1_excludes_reject_witness :
    URL_WHITELIST.contains (normalize_url (lit "https://thepienews.com/x")) = false ∧
    rxSearch EXCLUDES_RX (lit "celebrity" ++ 32 :: lit "visa") = true ∧
    like_examples (lit "celebrity") (lit "visa") (lit "https://thepienews.com/x") = false :=
  have h1 : URL_WHITELIST.contains (normalize_url (lit "https://thepienews.com/x")) = false := by
    decide
  have h2 : rxSearch EXCLUDES_RX (lit "celebrity" ++ 32 :: lit "visa") = true := by decide
  ⟨h1, h2, c1_excludes_reject _ _ _ h1 h2⟩

/-- Claim C3, counterexample: a feed entry with no resolvable date
(`entry_datetime` and `best_article_datetime` both yield nothing) whose
link is whitelisted is not discarded — `items_from_feed` keeps it and
assigns it the current date. -/
theorem c3_counterexample :
    processFeedEntry (lit "2025-04-12") (lit "2025-10-12")
      { title := lit "x"
        link := some (lit "https://www.dhs.gov/news/2025/08/27/trump-administration-proposes-new-rule-end-foreign-student-visa-abuse")
        summary := []
        entryDt := none
        artDt := none
        pageGovLinks := [] } =
      some { date := lit "2025-10-12"
             category := lit "Policy Update"
             headline := lit "x"
             description := []
             source := lit "www.dhs.gov"
             url := lit "https://www.dhs.gov/news/2025/08/27/trump-administration-proposes-new-rule-end-foreign-student-visa-abuse"
             gov_sources := [] } := by
  decide

/-- Claim C3, amended: a feed entry whose date cannot be resolved from any
source is discarded by the per-entry processing of `items_from_feed` and
`items_from_govuk_search` — unless its normalized link is in the URL
whitelist, in which case the current date is assigned instead. -/
theorem c3_undated_discarded (wf now : PyStr) (e : Entry)
    (hdt : resolvedDt e = none)
    (hwl : URL_WHITELIST.contains (normalize_url (pyStrip (e.link.getD []))) = false) :
    processFeedEntry wf now e = none ∧ processGovukSearchEntry wf now e = none := by
  constructor
  · unfold processFeedEntry
    simp only [hwl, hdt]
    simp [within_window]
  · unfold processGovukSearchEntry
    simp only [hwl, hdt]
    simp [within_window]

/-- Claim C3 witness: the amended theorem applied to a concrete undated,
non-whitelisted entry. -/
theorem c3_undated_discarded_witness :
    resolvedDt ({ title := lit "t", link := some (lit "https://thepienews.com/x"),
                  summary := [], entryDt := none, artDt := none,
                  pageGovLinks := [] } : Entry) = none ∧
    URL_WHITELIST.contains (normalize_url (pyStrip (lit "https://thepienews.com/x"))) = false ∧
    processFeedEntry (lit "2025-04-12") (lit "2025-10-12")
      ({ title := lit "t", link := some (lit "https://thepienews.com/x"),
         summary := [], entryDt := none, artDt := none,
         pageGovLinks := [] } : Entry) = none :=
  have h1 : resolvedDt ({ title := lit "t", link := some (lit "https://thepienews.com/x"),
                          summary := [], entryDt := none, artDt := none,
                          pageGovLinks := [] } : Entry) = none := rfl
  have h2 : URL_WHITELIST.contains
      (normalize_url (pyStrip (lit "https://thepienews.com/x"))) = false := by decide
  ⟨h1, h2, (c3_undated_discarded _ _ _ h1 h2).1⟩

/-- Claim C4: if the blob contains no exclusion phrase, matches the core
and impact lexicons, the link passes the domain and path guards, and
either the normalized link's host is governmental or the blob has an
action or country/system cue, then `like_examples` returns `true`. -/
theorem c4_inclusion (title summary link : PyStr)
    (hex : rxSearch EXCLUDES_RX (title ++ 32 :: summary) = false)
    (hcore : rxSearch CORE_RX (title ++ 32 :: summary) = true)
    (himp : rxSearch IMPACT_RX (title ++ 32 :: summary) = true)
    (hall : pyAllowed link = true)
    (hpath : pyPathAllowed link = true)
    (hbranch : isGovHost (pyHost (normalize_url link)) = true ∨
               rxSearch ACTIONS_RX (title ++ 32 :: summary) = true ∨
               rxSearch COUNTRY_RX (title ++ 32 :: summary) = true) :
    like_examples title summary link = true := by
  unfold like_examples
  by_cases hwl : normalize_url link ∈ URL_WHITELIST
  · simp [hwl]
  · rcases hbranch with hgov | hact | hcty
    · simp [hwl, hex, hcore, himp, hgov]
    · simp [hwl, hex, hcore, himp, hact]
    · simp [hwl, hex, hcore, himp, hcty]

/-- Claim C4 witness: a media-host article whose blob has core, impact and
action cues and no exclusion phrase is accepted. -/
theorem c4_inclusion_witness :
    rxSearch EXCLUDES_RX (lit "visa update" ++ 32 :: lit "international students") = false ∧
    rxSearch CORE_RX (lit "visa update" ++ 32 :: lit "international students") = true ∧
    rxSearch IMPACT_RX (lit "visa update" ++ 32 :: lit "international students") = true ∧
    pyAllowed (lit "https://thepienews.com/x") = true ∧
    pyPathAllowed (lit "https://thepienews.com/x") = true ∧
    like_examples (lit "visa update") (lit "international students")
      (lit "https://thepienews.com/x") = true :=
  have h1 : rxSearch EXCLUDES_RX (lit "visa update" ++ 32 :: lit "international students") = false := by
    decide
  have h2 : rxSearch CORE_RX (lit "visa update" ++ 32 :: lit "international students") = true := by
    decide
  have h3 : rxSearch IMPACT_RX (lit "visa update" ++ 32 :: lit "international students") = true := by
    decide
  have h4 : pyAllowed (lit "https://thepienews.com/x") = true := by decide
  have h5 : pyPathAllowed (lit "https://thepienews.com/x") = true := by decide
  have h6 : rxSearch ACTIONS_RX (lit "visa update" ++ 32 :: lit "international students") = true := by
    decide
  ⟨h1, h2, h3, h4, h5, c4_inclusion _ _ _ h1 h2 h3 h4 h5 (Or.inr (Or.inl h6))⟩

/-- Claim C2, counterexample: running the writer twice with byte-identical
computed payloads performs the page-1 and index writes both times — the
second run repeats the same writes rather than being a no-op, because
`write_paginated` never compares hashes (its `sig` helper is dead code). -/
theorem c2_counterexample :
    (write_paginated_run (write_paginated_run [] [] 30).1 [] 30).2 =
      (write_paginated_run [] [] 30).2 ∧
    (write_paginated_run (write_paginated_run [] [] 30).1 [] 30).2.length = 2 :=
  ⟨rfl, rfl⟩

/-- Claim C2, amended: `write_paginated` serializes and writes its pages
and the index unconditionally on every run: the performed writes are
nonempty and do not depend on the existing on-disk state — no hash of the
payload is compared against the existing file (`sig` is defined in the
script but never invoked). -/
theorem c2_writes_unconditional (disk disk' : FS) (items : List Item) (page_size : Nat) :
    write_paginated_writes disk items page_size ≠ [] ∧
    write_paginated_writes disk items page_size =
      write_paginated_writes disk' items page_size := by
  constructor
  · simp [write_paginated_writes]
  · rfl

/-- Claim C5, counterexample: two candidate items with identical
`(headline.lower(), url)` can both fail to appear in the output: an
earlier-sorted item whose distinct URL normalizes to the same dedup key
shadows them, so zero occurrences survive (not exactly one).  All three
candidates are in-window and domain-allowed. -/
theorem c5_counterexample :
    let b : Item := { date := lit "2025-09-01", category := lit "Policy Update",
                      headline := lit "x", description := [], source := lit "www.gov.uk",
                      url := lit "https://www.gov.uk/a", gov_sources := [] }
    let a : Item := { date := lit "2025-09-01", category := lit "Policy Update",
                      headline := lit "x", description := [], source := lit "www.gov.uk",
                      url := lit "https://www.gov.uk/a ", gov_sources := [] }
    ([b, a, b].all (safeItem (lit "2025-04-12")) = true) ∧
    (([b, a, b].filter fun it =>
        (pyLower it.headline, it.url) = (pyLower b.headline, b.url)).length = 2) ∧
    ((collect_items_core (lit "2025-04-12") [b, a, b]).filter fun it =>
        (pyLower it.headline, it.url) = (pyLower b.headline, b.url)).length = 0 := by
  decide

/-- Claim C5, amended: in the output of `collect_items` the dedup key
`(headline.strip().lower(), normalize_url(url))` is unique; for any
candidate item (candidates being in-window and domain-allowed, as every
producer guarantees), exactly one item with its dedup key — the first in
descending sort order — survives deduplication and appears in the
output. -/
theorem c5_dedup (wf : PyStr) (xs : List Item) (a : Item)
    (hsafe : ∀ it ∈ xs, safeItem wf it = true) (ha : a ∈ xs) :
    ((collect_items_core wf xs).filter fun it => dedupKey it = dedupKey a) =
      ((sortDesc xs).filter fun it => dedupKey it = dedupKey a).take 1 ∧
    ((collect_items_core wf xs).filter fun it => dedupKey it = dedupKey a).length = 1 ∧
    (collect_items_core wf xs).Pairwise (fun x y => dedupKey x ≠ dedupKey y) := by
  have hc := collect_eq_of_safe wf xs hsafe
  have hf := dedupGo_filter_key (dedupKey a) (sortDesc xs) []
  simp only [List.contains_nil, Bool.false_eq_true, if_false] at hf
  have hmem : a ∈ (sortDesc xs).filter fun it => dedupKey it = dedupKey a :=
    List.mem_filter.mpr ⟨mem_sortDesc.mpr ha, by simp⟩
  refine ⟨?_, ?_, ?_⟩
  · rw [hc]
    exact hf
  · rw [hc, hf]
    cases hfl : (sortDesc xs).filter fun it => dedupKey it = dedupKey a with
    | nil => rw [hfl] at hmem; cases hmem
    | cons b t => simp
  · rw [hc]
    exact (dedupGo_keys_distinct (sortDesc xs) []).2

/-- Claim C5 witness: the amended theorem at a singleton candidate list. -/
theorem c5_dedup_witness :
    let g : Item := { date := lit "2025-09-01", category := lit "Policy Update",
                      headline := lit "A", description := [], source := lit "www.gov.uk",
                      url := lit "https://www.gov.uk/x", gov_sources := [] }
    ([g].all (safeItem (lit "2025-04-12")) = true) ∧
    ((collect_items_core (lit "2025-04-12") [g]).filter fun it =>
        dedupKey it = dedupKey g).length = 1 := by
  intro g
  have hall : [g].all (safeItem (lit "2025-04-12")) = true := by decide
  refine ⟨hall, ?_⟩
  exact (c5_dedup (lit "2025-04-12") [g] g (List.all_eq_true.mp hall) (by decide)).2.1

/-- Components of a false triple comparison at equal first component. -/
theorem keyLt3_false_components {a b : PyStr × PyStr × PyStr}
    (h : keyLt3 a b = false) (hd : a.1 = b.1) :
    lexLt a.2.1 b.2.1 = false ∧ (a.2.1 = b.2.1 → lexLt a.2.2 b.2.2 = false) := by
  unfold keyLt3 at h
  rw [hd, lexLt_irrefl] at h
  simp only [eq_self_iff_true, decide_True, Bool.true_and, Bool.false_or] at h
  obtain ⟨h1, h2⟩ := Bool.or_eq_false_iff.mp h
  refine ⟨h1, fun he => ?_⟩
  rw [he] at h2
  simpa using h2

/-- Claim C6, counterexample: `collect_items` sorts by the code's key
`(date, headline.strip().lower(), url)`, not the claim's
`(date, headline.lower(), url)`. For two same-date domain-allowed items
whose headlines are `"ab"` and `"ab "` (trailing space, reachable via the
`title[:200]` truncation), the stripped keys tie and the url tie-break
puts the `"ab"` item first, yet on the claim's unstripped triple that
first item is lexicographically smaller — the output violates the
claim's descending order. -/
theorem c6_counterexample :
    let x : Item := { date := lit "2025-09-01", category := lit "Policy Update",
                      headline := lit "ab", description := [], source := lit "www.gov.uk",
                      url := lit "https://www.gov.uk/y", gov_sources := [] }
    let y : Item := { date := lit "2025-09-01", category := lit "Policy Update",
                      headline := lit "ab ", description := [], source := lit "www.gov.uk",
                      url := lit "https://www.gov.uk/x", gov_sources := [] }
    collect_items_core (lit "2025-04-12") [x, y] = [x, y] ∧
    keyLt3 (claimKey x) (claimKey y) = true := by
  decide

/-- Claim C6, amended: the output of `collect_items` is ordered
newest-first, descending by the code's sort triple
`(date, headline.strip().lower(), url)`; consequently, among equal dates
the item with the lexicographically later stripped lowercased headline
comes first, and among equal dates and stripped headlines the later url
comes first. -/
theorem c6_sorted (wf : PyStr) (xs : List Item) :
    (collect_items_core wf xs).Pairwise (fun x y =>
      keyLt3 (sortKey x) (sortKey y) = false) ∧
    (collect_items_core wf xs).Pairwise (fun x y =>
      x.date = y.date →
        lexLt (pyLower (pyStrip x.headline)) (pyLower (pyStrip y.headline)) = false ∧
        (pyLower (pyStrip x.headline) = pyLower (pyStrip y.headline) →
          lexLt x.url y.url = false)) := by
  have hsorted : (collect_items_core wf xs).Pairwise
      (fun a b => keyLt3 (sortKey a) (sortKey b) = false) := by
    unfold collect_items_core
    exact List.Pairwise.sublist (List.filter_sublist _)
      (List.Pairwise.sublist (dedupGo_sublist (sortDesc xs) []) (sortDesc_sorted xs))
  refine ⟨hsorted, List.Pairwise.imp ?_ hsorted⟩
  intro x y hr hd
  exact keyLt3_false_components hr hd

/-- Every chunk produced by `chunk` has at most `size` elements. -/
theorem chunkGo_length_le (size : Nat) :
    ∀ (fuel : Nat) (l : List Item), ∀ p ∈ chunkGo size l fuel, p.length ≤ size := by
  intro fuel
  induction fuel with
  | zero => intro l p hp; simp [chunkGo] at hp
  | succ n ih =>
    intro l p hp
    cases l with
    | nil => simp [chunkGo] at hp
    | cons x xs =>
      simp only [chunkGo, List.mem_cons] at hp
      rcases hp with rfl | hp
      · simpa using List.length_take_le size (x :: xs)
      · exact ih _ p hp

/-- Claim C7: every output page of `write_paginated` holds at most
`page_size` items — page 1 is truncated with `take` after the diversity
caps, and every later page produced by `chunk` has length at most
`page_size`. -/
theorem c7_page_size_bound (items : List Item) (page_size : Nat)
    (h : 0 < page_size) :
    ∀ p ∈ write_pages items page_size, p.length ≤ page_size := by
  intro p hp
  simp only [write_pages, List.mem_cons] at hp
  rcases hp with rfl | hp
  · simpa using List.length_take_le _ _
  · unfold chunk at hp
    rw [if_neg (Nat.pos_iff_ne_zero.mp h)] at hp
    exact chunkGo_length_le _ _ _ p hp

/-- Claim C7 witness: the bound evaluated at a concrete input. -/
theorem c7_page_size_bound_witness :
    0 < 30 ∧ ((write_pages [] 30).map List.length).all (fun n => n ≤ 30) = true := by
  refine ⟨by decide, ?_⟩
  rw [List.all_eq_true]
  intro n hn
  simp only [List.mem_map] at hn
  obtain ⟨p, hp, rfl⟩ := hn
  simpa using c7_page_size_bound [] 30 (by decide) p hp

/-- Claim C8: a fetch or parse failure inside the body of
`fetch_feed_once` is caught there, the function returns the empty entry
list, and the feed's per-entry processing therefore contributes zero
items; no exception propagates to the caller. -/
theorem c8_feed_failure_contained (w : FeedWorld)
    (hfail : fetch_feed_once_aux w = .error ()) :
    fetch_feed_once w = [] ∧
    ∀ wf now, items_from_feed_entries wf now (fetch_feed_once w) = [] := by
  have h : fetch_feed_once w = [] := by
    unfold fetch_feed_once
    rw [hfail]
  exact ⟨h, fun wf now => by rw [h]; rfl⟩

/-- Claim C8 witness: a world whose primary parse raises. -/
theorem c8_feed_failure_contained_witness :
    fetch_feed_once_aux ⟨.error (), .error (), .error ()⟩ = .error () ∧
    fetch_feed_once ⟨.error (), .error (), .error ()⟩ = [] ∧
    items_from_feed_entries (lit "2025-04-12") (lit "2025-10-12")
      (fetch_feed_once ⟨.error (), .error (), .error ()⟩) = [] :=
  have h : fetch_feed_once_aux ⟨.error (), .error (), .error ()⟩ = .error () := rfl
  ⟨h, (c8_feed_failure_contained _ h).1,
    (c8_feed_failure_contained _ h).2 (lit "2025-04-12") (lit "2025-10-12")⟩

/-- The literal date stop test of the source equals the amended-spec page
stop predicate. -/
theorem all_entryDt_map (wf : PyStr) (l : List Entry) :
    ((l.map Entry.entryDt).all fun d =>
      match d with
      | none => true
      | some x => lexLt x wf) =
    (l.all fun e =>
      match e.entryDt with
      | none => true
      | some x => lexLt x wf) := by
  induction l with
  | nil => rfl
  | cons e t ih => simp only [List.map_cons, List.all_cons, ih]

theorem datesStop_map (wf : PyStr) (es : List Entry) :
    datesStop wf (es.map Entry.entryDt) = pageAllParseableOld wf es := by
  unfold datesStop pageAllParseableOld
  rw [all_entryDt_map]
  cases es <;> rfl

theorem wp_go_amended_eq (pages : Nat → List Entry) (wf : PyStr) :
    ∀ fuel i seen acc,
      paginate_wp_go pages wf i fuel seen acc =
        paginate_wp_amended_go pages wf i fuel seen acc := by
  intro fuel
  induction fuel with
  | zero => intro i seen acc; rfl
  | succ n ih =>
    intro i seen acc
    by_cases h1 : pages i = []
    · simp [paginate_wp_go, paginate_wp_amended_go, h1]
    · by_cases h2 : wpNewEntries seen (pages i) = []
      · simp [paginate_wp_go, paginate_wp_amended_go, h1, h2]
      · by_cases h3 : pageAllParseableOld wf (wpNewEntries seen (pages i)) = true
        · simp [paginate_wp_go, paginate_wp_amended_go, h1, h2, datesStop_map, h3]
        · simp [paginate_wp_go, paginate_wp_amended_go, h1, h2, datesStop_map, h3, ih]

theorem atom_go_amended_eq (pages : Nat → List Entry) (wf : PyStr) :
    ∀ fuel i acc,
      paginate_atom_go pages wf i fuel acc =
        paginate_atom_amended_go pages wf i fuel acc := by
  intro fuel
  induction fuel with
  | zero => intro i acc; rfl
  | succ n ih =>
    intro i acc
    by_cases h1 : pages i = []
    · simp [paginate_atom_go, paginate_atom_amended_go, h1]
    · by_cases h3 : pageAllParseableOld wf (pages i) = true
      · simp [paginate_atom_go, paginate_atom_amended_go, h1, datesStop_map, h3]
      · simp [paginate_atom_go, paginate_atom_amended_go, h1, datesStop_map, h3, ih]

/-- Claim C9, counterexample: on a first page whose entries all lack a
parseable date, the code's paginator stops, while the paginator described
by the claim (stop only when every entry is dated strictly older than the
window start) would fetch the next page. -/
theorem c9_counterexample :
    let pages : Nat → List Entry := fun i =>
      if i = 1 then
        [{ title := lit "a", link := some (lit "l1"), summary := [],
           entryDt := none, artDt := none, pageGovLinks := [] }]
      else if i = 2 then
        [{ title := lit "b", link := some (lit "l2"), summary := [],
           entryDt := some (lit "2025-09-01"), artDt := none, pageGovLinks := [] }]
      else []
    paginate_wp_feed pages (lit "2025-04-12") 5 ≠
      paginate_wp_claim pages (lit "2025-04-12") 5 := by
  decide

/-- Claim C9, amended: both paginators stop exactly when the page limit is
reached, a page yields no (new) entries, or every entry of the page that
has a parseable date is dated strictly before `WINDOW_FROM` (undated
entries are ignored by the test, so a page with no parseable dates also
stops); otherwise the page's entries are accumulated and the next page is
fetched. -/
theorem c9_pagination_stop (pages : Nat → List Entry) (wf : PyStr) (max_pages : Nat) :
    paginate_wp_feed pages wf max_pages = paginate_wp_amended pages wf max_pages ∧
    paginate_atom pages wf max_pages = paginate_atom_amended pages wf max_pages :=
  ⟨wp_go_amended_eq pages wf max_pages 1 [] [],
   atom_go_amended_eq pages wf max_pages 1 []⟩

/-! ## Lemmas toward normalize_url idempotence (C10) -/

/-- Claim C10, counterexample: `normalize_url` is not idempotent — a URL
whose path ends in a space before the fragment normalizes to a string
with a trailing space, which a second normalization strips away. -/
theorem c10_counterexample :
    normalize_url (normalize_url (lit "http://h/a #f")) ≠
      normalize_url (lit "http://h/a #f") := by
  decide

theorem pyLower1_idem (c : Nat) : pyLower1 (pyLower1 c) = pyLower1 c := by
  unfold pyLower1
  by_cases h1 : 65 ≤ c
  · by_cases h2 : c ≤ 90
    · have hno : ¬ c + 32 ≤ 90 := by omega
      simp [h1, h2, hno]
    · simp [h2]
  · simp [h1]

theorem pyLower_idem (s : PyStr) : pyLower (pyLower s) = pyLower s := by
  unfold pyLower
  rw [List.map_map]
  exact List.map_congr_left fun c _ => pyLower1_idem c

/-- A string with no leading and no trailing whitespace is `strip`-fixed. -/
theorem pyStrip_eq_of {s : PyStr} (h1 : s.dropWhile isPyWs = s)
    (h2 : s.reverse.dropWhile isPyWs = s.reverse) : pyStrip s = s := by
  unfold pyStrip
  rw [h1, h2, List.reverse_reverse]

theorem pyStrip_noTrail (s : PyStr) :
    (pyStrip s).reverse.dropWhile isPyWs = (pyStrip s).reverse := by
  unfold pyStrip
  rw [List.reverse_reverse]
  exact List.dropWhile_idempotent _ _

theorem dropWhile_eq_self_of_head {l : PyStr} {p : Nat → Bool}
    (h : ∀ c, l.head? = some c → p c = false) : l.dropWhile p = l := by
  cases l with
  | nil => rfl
  | cons c cs =>
    have hc := h c rfl
    rw [List.dropWhile_cons_of_neg (by rw [hc]; exact Bool.false_ne_true)]

theorem pyStrip_noLead (s : PyStr) :
    (pyStrip s).dropWhile isPyWs = pyStrip s := by
  apply dropWhile_eq_self_of_head
  intro c hc
  obtain ⟨t0, ht⟩ :=
    List.dropWhile_suffix (l := (s.dropWhile isPyWs).reverse) isPyWs
  have ha : s.dropWhile isPyWs = pyStrip s ++ t0.reverse := by
    have h2 := congrArg List.reverse ht
    simpa [List.reverse_append, pyStrip] using h2.symm
  have hx := List.head?_dropWhile_not isPyWs s
  rw [ha] at hx
  cases hps : pyStrip s with
  | nil => rw [hps] at hc; cases hc
  | cons d ds =>
    rw [hps] at hc hx
    simp only [List.cons_append, List.head?_cons] at hc hx
    cases hc
    exact hx

theorem pyStrip_idem (s : PyStr) : pyStrip (pyStrip s) = pyStrip s :=
  pyStrip_eq_of (pyStrip_noLead s) (pyStrip_noTrail s)

theorem rstripSlash_noTrail (s : PyStr) :
    (rstripSlash s).reverse.dropWhile (fun c => c = 47) = (rstripSlash s).reverse := by
  unfold rstripSlash
  rw [List.reverse_reverse]
  exact List.dropWhile_idempotent _ _

theorem rstripSlash_idem (s : PyStr) : rstripSlash (rstripSlash s) = rstripSlash s := by
  show ((rstripSlash s).reverse.dropWhile (fun c => c = 47)).reverse = rstripSlash s
  rw [rstripSlash_noTrail, List.reverse_reverse]

theorem pathNorm_idem (p : PyStr) : pathNorm (pathNorm p) = pathNorm p := by
  by_cases h : p = [] ∨ p = [47]
  · rcases h with h | h <;> subst h <;> decide
  · push_neg at h
    have hp : pathNorm p = rstripSlash p := by simp [pathNorm, h.1, h.2]
    rw [hp]
    by_cases h2 : rstripSlash p = [] ∨ rstripSlash p = [47]
    · rcases h2 with h2 | h2
      · rw [h2]; decide
      · exact absurd (h2 ▸ rstripSlash_noTrail p) (by decide)
    · push_neg at h2
      have h3 : pathNorm (rstripSlash p) = rstripSlash (rstripSlash p) := by
        simp [pathNorm, h2.1, h2.2]
      rw [h3, rstripSlash_idem]

/-! ### UTF-8 / percent-quoting round trip -/

theorem isAlwaysSafe_facts {c : Nat} (h : isAlwaysSafe c = true) :
    c ≠ 37 ∧ c ≠ 43 ∧ c ≠ 32 := by
  simp only [isAlwaysSafe, Bool.or_eq_true, Bool.and_eq_true, decide_eq_true_eq] at h
  omega

theorem hexVal_hexUp {n : Nat} (h : n < 16) : hexVal (hexUp n) = some n := by
  by_cases h10 : n < 10
  · have e : hexUp n = 48 + n := by unfold hexUp; rw [if_pos h10]
    rw [e]
    unfold hexVal
    rw [if_pos (by simp only [Bool.and_eq_true, decide_eq_true_eq]; omega)]
    simp only [Option.some.injEq]
    omega
  · have e : hexUp n = 55 + n := by unfold hexUp; rw [if_neg h10]
    rw [e]
    unfold hexVal
    rw [if_neg (by simp only [Bool.and_eq_true, decide_eq_true_eq]; omega),
        if_pos (by simp only [Bool.and_eq_true, decide_eq_true_eq]; omega)]
    simp only [Option.some.injEq]
    omega

theorem hexUp_ne_37 {n : Nat} (h : n < 16) : hexUp n ≠ 37 := by
  unfold hexUp
  by_cases h10 : n < 10
  · rw [if_pos h10]; omega
  · rw [if_neg h10]; omega

theorem u8encode1_bytes_lt {c : Nat} (hc : c < 1310720) :
    ∀ b ∈ u8encode1 c, b < 256 := by
  intro b hb
  unfold u8encode1 at hb
  by_cases h1 : c < 128
  · rw [if_pos h1] at hb
    simp only [List.mem_singleton] at hb
    omega
  · rw [if_neg h1] at hb
    by_cases h2 : c < 2048
    · rw [if_pos h2] at hb
      simp only [List.mem_cons, List.mem_singleton] at hb
      have hd : c / 64 ≤ 31 := by omega
      have hm : c % 64 ≤ 63 := by omega
      rcases hb with rfl | rfl | h
      · omega
      · omega
      · cases h
    · rw [if_neg h2] at hb
      by_cases h3 : c < 65536
      · rw [if_pos h3] at hb
        simp only [List.mem_cons, List.mem_singleton] at hb
        have hd : c / 4096 ≤ 15 := by omega
        have hm1 : (c / 64) % 64 ≤ 63 := Nat.le_of_lt_succ (Nat.mod_lt _ (by omega))
        have hm2 : c % 64 ≤ 63 := by omega
        rcases hb with rfl | rfl | rfl | h
        · omega
        · omega
        · omega
        · cases h
      · rw [if_neg h3] at hb
        simp only [List.mem_cons, List.mem_singleton] at hb
        have hd : c / 262144 ≤ 4 := by omega
        have hm1 : (c / 4096) % 64 ≤ 63 := Nat.le_of_lt_succ (Nat.mod_lt _ (by omega))
        have hm2 : (c / 64) % 64 ≤ 63 := Nat.le_of_lt_succ (Nat.mod_lt _ (by omega))
        have hm3 : c % 64 ≤ 63 := by omega
        rcases hb with rfl | rfl | rfl | rfl | h
        · omega
        · omega
        · omega
        · omega
        · cases h

theorem foldl_u8dstep_encode {c : Nat} (hc : c < 1310720) (out : PyStr) :
    (u8encode1 c).foldl u8dstep (out, none) = (out ++ [c], none) := by
  by_cases h1 : c < 128
  · have e : u8encode1 c = [c] := by unfold u8encode1; rw [if_pos h1]
    rw [e]
    simp only [List.foldl_cons, List.foldl_nil, u8dstep, u8step, u8lead, if_pos h1]
  · by_cases h2 : c < 2048
    · have e : u8encode1 c = [192 + c / 64, 128 + c % 64] := by
        unfold u8encode1; rw [if_neg h1, if_pos h2]
      have hno : ¬ (192 + c / 64 < 128) := by omega
      have hrange : (194 ≤ 192 + c / 64 && 192 + c / 64 ≤ 223) = true := by
        simp only [Bool.and_eq_true, decide_eq_true_eq]
        omega
      have hcont : isContByte (128 + c % 64) = true := by
        simp only [isContByte, Bool.and_eq_true, decide_eq_true_eq]
        omega
      have hval : (192 + c / 64 - 192) * 64 + (128 + c % 64 - 128) = c := by omega
      rw [e]
      simp only [List.foldl_cons, List.foldl_nil, u8dstep, u8step, u8lead,
        if_neg hno, if_pos hrange, hcont, if_pos rfl, hval, if_true]
      simp
    · by_cases h3 : c < 65536
      · have e : u8encode1 c =
            [224 + c / 4096, 128 + (c / 64) % 64, 128 + c % 64] := by
          unfold u8encode1; rw [if_neg h1, if_neg h2, if_pos h3]
        have hno : ¬ (224 + c / 4096 < 128) := by omega
        have hno2 : ¬ ((194 ≤ 224 + c / 4096 && 224 + c / 4096 ≤ 223) = true) := by
          simp only [Bool.and_eq_true, decide_eq_true_eq]
          omega
        have hrange : (224 ≤ 224 + c / 4096 && 224 + c / 4096 ≤ 239) = true := by
          simp only [Bool.and_eq_true, decide_eq_true_eq]
          omega
        have hm1 : (c / 64) % 64 ≤ 63 := Nat.le_of_lt_succ (Nat.mod_lt _ (by omega))
        have hcont1 : isContByte (128 + (c / 64) % 64) = true := by
          simp only [isContByte, Bool.and_eq_true, decide_eq_true_eq]
          omega
        have hcont2 : isContByte (128 + c % 64) = true := by
          simp only [isContByte, Bool.and_eq_true, decide_eq_true_eq]
          omega
        have hval : ((224 + c / 4096 - 224) * 64 + (128 + (c / 64) % 64 - 128)) * 64 +
            (128 + c % 64 - 128) = c := by omega
        rw [e]
        simp only [List.foldl_cons, List.foldl_nil, u8dstep, u8step, u8lead,
          if_neg hno, if_neg hno2, if_pos hrange, hcont1, hcont2, hval, if_true]
        simp
        omega
      · have e : u8encode1 c =
            [240 + c / 262144, 128 + (c / 4096) % 64, 128 + (c / 64) % 64,
             128 + c % 64] := by
          unfold u8encode1; rw [if_neg h1, if_neg h2, if_neg h3]
        have hno : ¬ (240 + c / 262144 < 128) := by omega
        have hno2 : ¬ ((194 ≤ 240 + c / 262144 && 240 + c / 262144 ≤ 223) = true) := by
          simp only [Bool.and_eq_true, decide_eq_true_eq]
          omega
        have hno3 : ¬ ((224 ≤ 240 + c / 262144 && 240 + c / 262144 ≤ 239) = true) := by
          simp only [Bool.and_eq_true, decide_eq_true_eq]
          omega
        have hrange : (240 ≤ 240 + c / 262144 && 240 + c / 262144 ≤ 244) = true := by
          simp only [Bool.and_eq_true, decide_eq_true_eq]
          omega
        have hm1 : (c / 4096) % 64 ≤ 63 := Nat.le_of_lt_succ (Nat.mod_lt _ (by omega))
        have hm2 : (c / 64) % 64 ≤ 63 := Nat.le_of_lt_succ (Nat.mod_lt _ (by omega))
        have hcont1 : isContByte (128 + (c / 4096) % 64) = true := by
          simp only [isContByte, Bool.and_eq_true, decide_eq_true_eq]
          omega
        have hcont2 : isContByte (128 + (c / 64) % 64) = true := by
          simp only [isContByte, Bool.and_eq_true, decide_eq_true_eq]
          omega
        have hcont3 : isContByte (128 + c % 64) = true := by
          simp only [isContByte, Bool.and_eq_true, decide_eq_true_eq]
          omega
        have hval : (((240 + c / 262144 - 240) * 64 + (128 + (c / 4096) % 64 - 128)) * 64 +
            (128 + (c / 64) % 64 - 128)) * 64 + (128 + c % 64 - 128) = c := by omega
        rw [e]
        simp only [List.foldl_cons, List.foldl_nil, u8dstep, u8step, u8lead,
          if_neg hno, if_neg hno2, if_neg hno3, if_pos hrange, hcont1, hcont2, hcont3,
          hval, if_true]
        simp
        omega

theorem hexUp_range {n : Nat} (h : n < 16) :
    (48 ≤ hexUp n ∧ hexUp n ≤ 57) ∨ (65 ≤ hexUp n ∧ hexUp n ≤ 70) := by
  unfold hexUp
  by_cases h10 : n < 10
  · rw [if_pos h10]; omega
  · rw [if_neg h10]; omega

theorem pctRun_mem {c : Nat} (hc : c < 1310720) {d : Nat}
    (hd : d ∈ (u8encode1 c).flatMap pctEncByte) :
    d = 37 ∨ (48 ≤ d ∧ d ≤ 57) ∨ (65 ≤ d ∧ d ≤ 70) := by
  rw [List.mem_flatMap] at hd
  obtain ⟨b, hb, hd⟩ := hd
  have hb256 := u8encode1_bytes_lt hc b hb
  have h1 : b / 16 < 16 := by omega
  have h2 : b % 16 < 16 := Nat.mod_lt _ (by omega)
  unfold pctEncByte at hd
  simp only [List.mem_cons, List.not_mem_nil, or_false] at hd
  rcases hd with rfl | rfl | rfl
  · left; rfl
  · right; exact hexUp_range h1
  · right; exact hexUp_range h2

theorem plusToSpace_quotePlus (s : PyStr) (h : ∀ c ∈ s, c < 1310720) :
    plusToSpace (quotePlus s) = s.flatMap pcExpand := by
  unfold plusToSpace quotePlus
  rw [List.map_flatMap]
  apply List.flatMap_congr
  intro c hcm
  by_cases hs : isAlwaysSafe c = true
  · rw [if_pos hs]
    obtain ⟨_, h43, _⟩ := isAlwaysSafe_facts hs
    simp [pcExpand, hs, h43]
  · by_cases h32 : c = 32
    · subst h32
      decide
    · rw [if_neg hs, if_neg h32]
      have hne : ∀ d ∈ (u8encode1 c).flatMap pctEncByte, d ≠ 43 := by
        intro d hd
        rcases pctRun_mem (h c hcm) hd with rfl | hr | hr
        · omega
        · omega
        · omega
      calc ((u8encode1 c).flatMap pctEncByte).map (fun d => if d = 43 then 32 else d)
          = ((u8encode1 c).flatMap pctEncByte).map id := by
            apply List.map_congr_left
            intro d hd
            simp [hne d hd]
        _ = pcExpand c := by rw [List.map_id]; simp [pcExpand, hs, h32]

theorem qtok_run_byte {b : Nat} (hb : b < 256) (ts : List QTok) :
    (pctEncByte b).foldl qtokStep (ts, none) = (ts ++ [QTok.byte b], none) := by
  have h1 : b / 16 < 16 := by omega
  have h2 : b % 16 < 16 := Nat.mod_lt _ (by omega)
  have e : 16 * (b / 16) + b % 16 = b := Nat.div_add_mod b 16
  have s1 : qtokStep (ts, none) 37 = (ts, some none) := by
    simp [qtokStep]
  have s2 : qtokStep (ts, some none) (hexUp (b / 16)) =
      (ts, some (some (hexUp (b / 16)))) := by
    simp [qtokStep, hexVal_hexUp h1]
  have s3 : qtokStep (ts, some (some (hexUp (b / 16)))) (hexUp (b % 16)) =
      (ts ++ [QTok.byte b], none) := by
    simp [qtokStep, hexVal_hexUp h1, hexVal_hexUp h2, e]
  unfold pctEncByte
  simp only [List.foldl_cons, List.foldl_nil, s1, s2, s3]

theorem qtok_run_bytes (l : List Nat) (hl : ∀ b ∈ l, b < 256) (ts : List QTok) :
    (l.flatMap pctEncByte).foldl qtokStep (ts, none) = (ts ++ l.map QTok.byte, none) := by
  induction l generalizing ts with
  | nil => simp
  | cons b bs ih =>
    rw [List.flatMap_cons, List.foldl_append, qtok_run_byte (hl b (by simp)) ts,
        ih (fun x hx => hl x (by simp [hx]))]
    simp

theorem qtok_run_pcExpand {c : Nat} (hc : c < 1310720) (ts : List QTok) :
    (pcExpand c).foldl qtokStep (ts, none) = (ts ++ tokExpand c, none) := by
  unfold pcExpand tokExpand
  by_cases hs : isAlwaysSafe c = true
  · rw [if_pos hs, if_pos hs]
    obtain ⟨h37, _, _⟩ := isAlwaysSafe_facts hs
    simp only [List.foldl_cons, List.foldl_nil, qtokStep]
    rw [if_neg h37]
  · by_cases h32 : c = 32
    · subst h32
      rw [if_neg hs, if_pos rfl, if_neg hs, if_pos rfl]
      simp [qtokStep]
    · rw [if_neg hs, if_neg h32, if_neg hs, if_neg h32]
      exact qtok_run_bytes _ (u8encode1_bytes_lt hc) ts

theorem qtokenize_flatMap_aux (s : PyStr) (h : ∀ c ∈ s, c < 1310720) (ts : List QTok) :
    (s.flatMap pcExpand).foldl qtokStep (ts, none) = (ts ++ s.flatMap tokExpand, none) := by
  induction s generalizing ts with
  | nil => simp
  | cons c cs ih =>
    rw [List.flatMap_cons, List.foldl_append, qtok_run_pcExpand (h c (by simp)) ts,
        ih (fun x hx => h x (by simp [hx]))]
    simp

theorem qtokenize_flatMap (s : PyStr) (h : ∀ c ∈ s, c < 1310720) :
    qtokenize (s.flatMap pcExpand) = s.flatMap tokExpand := by
  unfold qtokenize
  rw [qtokenize_flatMap_aux s h []]
  simp [qtokFlush]

theorem unq_run_tokExpand {c : Nat} (hc : c < 1310720) (out : PyStr) :
    (tokExpand c).foldl unqStep (out, none) = (out ++ [c], none) := by
  unfold tokExpand
  by_cases hs : isAlwaysSafe c = true
  · rw [if_pos hs]
    simp [unqStep, u8flush]
  · by_cases h32 : c = 32
    · subst h32
      rw [if_neg hs, if_pos rfl]
      simp [unqStep, u8flush]
    · rw [if_neg hs, if_neg h32, List.foldl_map]
      exact foldl_u8dstep_encode hc out

theorem unqTokens_flatMap_aux (s : PyStr) (h : ∀ c ∈ s, c < 1310720) (out : PyStr) :
    (s.flatMap tokExpand).foldl unqStep (out, none) = (out ++ s, none) := by
  induction s generalizing out with
  | nil => simp
  | cons c cs ih =>
    rw [List.flatMap_cons, List.foldl_append, unq_run_tokExpand (h c (by simp)) out,
        ih (fun x hx => h x (by simp [hx]))]
    simp

theorem unquotePlus_quotePlus (s : PyStr) (h : ∀ c ∈ s, c < 1310720) :
    unquotePlus (quotePlus s) = s := by
  unfold unquotePlus
  rw [plusToSpace_quotePlus s h, qtokenize_flatMap s h]
  unfold unqTokens
  rw [unqTokens_flatMap_aux s h []]
  simp [u8flush]

/-! ### Splitter lemmas -/

theorem splitOnce_eq {sep : Nat} : ∀ {s a b : PyStr}, splitOnce sep s = some (a, b) →
    s = a ++ sep :: b ∧ ∀ c ∈ a, c ≠ sep
  | [], _, _, h => by cases h
  | c :: cs, a, b, h => by
    unfold splitOnce at h
    by_cases hc : c = sep
    · rw [if_pos hc] at h
      simp only [Option.some.injEq, Prod.mk.injEq] at h
      obtain ⟨rfl, rfl⟩ := h
      subst hc
      exact ⟨rfl, by intro x hx; cases hx⟩
    · rw [if_neg hc] at h
      cases hsp : splitOnce sep cs with
      | none => rw [hsp] at h; cases h
      | some ab =>
        rw [hsp] at h
        obtain ⟨a1, b1⟩ := ab
        simp only [Option.some.injEq, Prod.mk.injEq] at h
        obtain ⟨rfl, rfl⟩ := h
        obtain ⟨he, hn⟩ := splitOnce_eq hsp
        refine ⟨by rw [List.cons_append, ← he], ?_⟩
        intro x hx
        rcases List.mem_cons.mp hx with rfl | hx
        · exact hc
        · exact hn x hx

theorem splitOnce_eq_none_of {sep : Nat} : ∀ {s : PyStr}, (∀ c ∈ s, c ≠ sep) →
    splitOnce sep s = none
  | [], _ => rfl
  | c :: cs, h => by
    unfold splitOnce
    rw [if_neg (h c (List.mem_cons_self c cs)),
        splitOnce_eq_none_of (fun x hx => h x (List.mem_cons_of_mem c hx))]

theorem splitOnce_none {sep : Nat} : ∀ {s : PyStr}, splitOnce sep s = none →
    ∀ c ∈ s, c ≠ sep
  | [], _, c, hc => absurd hc (List.not_mem_nil c)
  | x :: xs, h, c, hc => by
    simp only [splitOnce] at h
    by_cases hx : x = sep
    · rw [if_pos hx] at h; cases h
    · rw [if_neg hx] at h
      cases hsp : splitOnce sep xs with
      | none =>
        rcases List.mem_cons.mp hc with rfl | hc
        · exact hx
        · exact splitOnce_none hsp c hc
      | some ab =>
        obtain ⟨a, b⟩ := ab
        rw [hsp] at h
        cases h

theorem splitOnce_append {sep : Nat} : ∀ {a : PyStr} (b : PyStr), (∀ c ∈ a, c ≠ sep) →
    splitOnce sep (a ++ sep :: b) = some (a, b)
  | [], b, _ => by
    rw [List.nil_append]
    simp only [splitOnce]
    rw [if_true]
  | c :: cs, b, h => by
    rw [List.cons_append]
    unfold splitOnce
    rw [if_neg (h c (List.mem_cons_self c cs)),
        splitOnce_append b (fun x hx => h x (List.mem_cons_of_mem c hx))]

theorem splitAtChar_no_sep {sep : Nat} {s : PyStr} (h : ∀ c ∈ s, c ≠ sep) :
    splitAtChar sep s = (s, []) := by
  unfold splitAtChar
  rw [splitOnce_eq_none_of h]

theorem splitAtChar_append {sep : Nat} {a : PyStr} (b : PyStr) (h : ∀ c ∈ a, c ≠ sep) :
    splitAtChar sep (a ++ sep :: b) = (a, b) := by
  unfold splitAtChar
  rw [splitOnce_append b h]

theorem splitAtChar_fst_no_sep (sep : Nat) (s : PyStr) :
    ∀ c ∈ (splitAtChar sep s).1, c ≠ sep := by
  unfold splitAtChar
  cases hsp : splitOnce sep s with
  | none => exact splitOnce_none hsp
  | some ab =>
    obtain ⟨a, b⟩ := ab
    exact (splitOnce_eq hsp).2

theorem splitAtChar_mem {sep : Nat} {s : PyStr} {c : Nat}
    (h : c ∈ (splitAtChar sep s).1 ∨ c ∈ (splitAtChar sep s).2) : c ∈ s := by
  unfold splitAtChar at h
  cases hsp : splitOnce sep s with
  | none =>
    rw [hsp] at h
    rcases h with h | h
    · exact h
    · cases h
  | some ab =>
    obtain ⟨a, b⟩ := ab
    rw [hsp] at h
    rw [(splitOnce_eq hsp).1]
    rcases h with h | h
    · exact List.mem_append_left _ h
    · exact List.mem_append_right _ (List.mem_cons_of_mem _ h)

theorem splitAtChar_fst_cons_ne {sep c : Nat} (cs : PyStr) (h : c ≠ sep) :
    ∃ x, (splitAtChar sep (c :: cs)).1 = c :: x := by
  unfold splitAtChar splitOnce
  rw [if_neg h]
  cases hsp : splitOnce sep cs with
  | none => exact ⟨cs, rfl⟩
  | some ab =>
    obtain ⟨a, b⟩ := ab
    exact ⟨a, rfl⟩

theorem splitAtChar_fst_cons_eq {sep : Nat} (cs : PyStr) :
    (splitAtChar sep (sep :: cs)).1 = [] := by
  unfold splitAtChar splitOnce
  rw [if_pos rfl]

theorem splitAllOn_no_sep {sep : Nat} : ∀ {s : PyStr}, (∀ c ∈ s, c ≠ sep) →
    splitAllOn sep s = [s]
  | [], _ => rfl
  | c :: cs, h => by
    have hr := splitAllOn_no_sep (s := cs) (fun x hx => h x (List.mem_cons_of_mem c hx))
    simp only [splitAllOn]
    rw [hr, if_neg (h c (List.mem_cons_self c cs))]

theorem splitAllOn_append_sep {sep : Nat} (r : PyStr) :
    ∀ {x : PyStr}, (∀ c ∈ x, c ≠ sep) →
    splitAllOn sep (x ++ sep :: r) = x :: splitAllOn sep r
  | [], _ => by
    rw [List.nil_append]
    simp only [splitAllOn]
    rw [if_true]
  | c :: cs, h => by
    have hr := splitAllOn_append_sep r (x := cs)
      (fun y hy => h y (List.mem_cons_of_mem c hy))
    rw [List.cons_append]
    simp only [splitAllOn]
    rw [hr, if_neg (h c (List.mem_cons_self c cs))]

theorem splitAllOn_joinSep {sep : Nat} :
    ∀ {ps : List PyStr}, ps ≠ [] → (∀ p ∈ ps, ∀ c ∈ p, c ≠ sep) →
    splitAllOn sep (joinSep sep ps) = ps
  | [], h, _ => absurd rfl h
  | [x], _, h => by
    simp only [joinSep]
    exact splitAllOn_no_sep (h x (by simp))
  | x :: y :: ys, _, h => by
    have hr := splitAllOn_joinSep (show (y :: ys : List PyStr) ≠ [] by simp)
      (fun p hp => h p (List.mem_cons_of_mem x hp))
    simp only [joinSep]
    rw [splitAllOn_append_sep _ (h x (by simp)), hr]

theorem splitAllOn_mem {sep : Nat} : ∀ {s p : PyStr}, p ∈ splitAllOn sep s →
    ∀ c ∈ p, c ∈ s
  | [], p, hp => by
    simp only [splitAllOn] at hp
    rcases List.mem_singleton.mp hp with rfl
    intro c hc
    cases hc
  | c0 :: cs, p, hp => by
    simp only [splitAllOn] at hp
    by_cases hc0 : c0 = sep
    · rw [if_pos hc0] at hp
      rcases List.mem_cons.mp hp with rfl | hp
      · intro c hc; cases hc
      · exact fun c hc => List.mem_cons_of_mem _ (splitAllOn_mem hp c hc)
    · rw [if_neg hc0] at hp
      cases hr : splitAllOn sep cs with
      | nil =>
        rw [hr] at hp
        rcases List.mem_singleton.mp hp with rfl
        intro c hc
        rcases List.mem_singleton.mp hc with rfl
        exact List.mem_cons_self _ _
      | cons ph pt =>
        rw [hr] at hp
        rcases List.mem_cons.mp hp with rfl | hp
        · intro c hc
          rcases List.mem_cons.mp hc with rfl | hc
          · exact List.mem_cons_self _ _
          · have : ph ∈ splitAllOn sep cs := by rw [hr]; exact List.mem_cons_self _ _
            exact List.mem_cons_of_mem _ (splitAllOn_mem this c hc)
        · have : p ∈ splitAllOn sep cs := by rw [hr]; exact List.mem_cons_of_mem _ hp
          exact fun c hc => List.mem_cons_of_mem _ (splitAllOn_mem this c hc)

theorem joinSep_mem {sep : Nat} : ∀ {ps : List PyStr} {c : Nat}, c ∈ joinSep sep ps →
    c = sep ∨ ∃ p ∈ ps, c ∈ p
  | [], c, h => absurd h (List.not_mem_nil c)
  | [x], c, h => .inr ⟨x, by simp, h⟩
  | x :: y :: ys, c, h => by
    simp only [joinSep] at h
    rcases List.mem_append.mp h with h | h
    · exact .inr ⟨x, by simp, h⟩
    · rcases List.mem_cons.mp h with rfl | h
      · exact .inl rfl
      · rcases joinSep_mem h with h | ⟨p, hp, hc⟩
        · exact .inl h
        · exact .inr ⟨p, List.mem_cons_of_mem _ hp, hc⟩

/-! ### Decoder output bounds -/

theorem u8lead_bound (b : Nat) :
    (∀ c ∈ (u8lead b).1, c < 1310720) ∧ u8stOK (u8lead b).2 := by
  unfold u8lead
  by_cases h1 : b < 128
  · rw [if_pos h1]
    refine ⟨?_, trivial⟩
    intro c hc
    rcases List.mem_singleton.mp hc with rfl
    omega
  · rw [if_neg h1]
    by_cases h2 : (194 ≤ b && b ≤ 223) = true
    · rw [if_pos h2]
      simp only [Bool.and_eq_true, decide_eq_true_eq] at h2
      refine ⟨fun c hc => absurd hc (List.not_mem_nil c), ?_⟩
      show u8stOK (some (b - 192, 1))
      left
      exact ⟨rfl, by omega⟩
    · rw [if_neg h2]
      by_cases h3 : (224 ≤ b && b ≤ 239) = true
      · rw [if_pos h3]
        simp only [Bool.and_eq_true, decide_eq_true_eq] at h3
        refine ⟨fun c hc => absurd hc (List.not_mem_nil c), ?_⟩
        show u8stOK (some (b - 224, 2))
        right; left
        exact ⟨rfl, by omega⟩
      · rw [if_neg h3]
        by_cases h4 : (240 ≤ b && b ≤ 244) = true
        · rw [if_pos h4]
          simp only [Bool.and_eq_true, decide_eq_true_eq] at h4
          refine ⟨fun c hc => absurd hc (List.not_mem_nil c), ?_⟩
          show u8stOK (some (b - 240, 3))
          right; right
          exact ⟨rfl, by omega⟩
        · rw [if_neg h4]
          refine ⟨?_, trivial⟩
          intro c hc
          rcases List.mem_singleton.mp hc with rfl
          unfold uREPL
          omega

set_option maxRecDepth 4000 in
theorem u8step_bound (st : U8St) (b : Nat) (hst : u8stOK st) :
    (∀ c ∈ (u8step st b).1, c < 1310720) ∧ u8stOK (u8step st b).2 := by
  cases st with
  | none => exact u8lead_bound b
  | some vk =>
    obtain ⟨v, k⟩ := vk
    simp only [u8step]
    by_cases hcb : isContByte b = true
    · rw [if_pos hcb]
      simp only [isContByte, Bool.and_eq_true, decide_eq_true_eq] at hcb
      unfold u8stOK at hst
      by_cases hk : k = 1
      · rw [if_pos hk]
        subst hk
        refine ⟨?_, trivial⟩
        intro c hc
        simp only [List.mem_singleton] at hc
        subst hc
        rcases hst with ⟨_, hv⟩ | ⟨h2, _⟩ | ⟨h3, _⟩
        · omega
        · omega
        · omega
      · rw [if_neg hk]
        refine ⟨fun c hc => absurd hc (List.not_mem_nil c), ?_⟩
        show u8stOK (some (v * 64 + (b - 128), k - 1))
        unfold u8stOK
        rcases hst with ⟨h1, _⟩ | ⟨h2, hv⟩ | ⟨h3, hv⟩
        · exact absurd h1 hk
        · left
          exact ⟨by omega, by omega⟩
        · right; left
          exact ⟨by omega, by omega⟩
    · rw [if_neg hcb]
      obtain ⟨ho, hst'⟩ := u8lead_bound b
      rcases hu : u8lead b with ⟨o, st'⟩
      rw [hu] at ho hst'
      refine ⟨?_, hst'⟩
      intro c hc
      rcases List.mem_cons.mp hc with rfl | hc
      · unfold uREPL; omega
      · exact ho c hc

theorem foldl_u8dstep_bound : ∀ (bs : List Nat) (out : PyStr) (st : U8St),
    (∀ c ∈ out, c < 1310720) → u8stOK st →
    (∀ c ∈ (bs.foldl u8dstep (out, st)).1, c < 1310720) ∧
      u8stOK (bs.foldl u8dstep (out, st)).2
  | [], _, _, ho, hst => ⟨ho, hst⟩
  | b :: bs, out, st, ho, hst => by
    have hs := u8step_bound st b hst
    have e : u8dstep (out, st) b = (out ++ (u8step st b).1, (u8step st b).2) := rfl
    rw [List.foldl_cons, e]
    refine foldl_u8dstep_bound bs _ _ ?_ hs.2
    intro c hc
    rcases List.mem_append.mp hc with h | h
    · exact ho c h
    · exact hs.1 c h

theorem u8flush_mem {st : U8St} {c : Nat} (h : c ∈ u8flush st) : c = uREPL := by
  cases st with
  | none => cases h
  | some vk => exact List.mem_singleton.mp h

theorem unqStep_bound (out : PyStr) (st : U8St) (t : QTok)
    (ho : ∀ c ∈ out, c < 1310720) (hst : u8stOK st) (ht : tokOK t) :
    (∀ c ∈ (unqStep (out, st) t).1, c < 1310720) ∧ u8stOK (unqStep (out, st) t).2 := by
  cases t with
  | byte b =>
    show (∀ c ∈ (u8dstep (out, st) b).1, c < 1310720) ∧ u8stOK (u8dstep (out, st) b).2
    have hs := u8step_bound st b hst
    have e : u8dstep (out, st) b = (out ++ (u8step st b).1, (u8step st b).2) := rfl
    rw [e]
    refine ⟨?_, hs.2⟩
    intro c hc
    rcases List.mem_append.mp hc with h | h
    · exact ho c h
    · exact hs.1 c h
  | chr d =>
    show (∀ c ∈ ((out ++ u8flush st ++ [d] : PyStr), (none : U8St)).1, c < 1310720) ∧
      u8stOK ((out ++ u8flush st ++ [d], none) : PyStr × U8St).2
    refine ⟨?_, trivial⟩
    intro c hc
    rcases List.mem_append.mp hc with h | h
    · rcases List.mem_append.mp h with h | h
      · exact ho c h
      · rw [u8flush_mem h]; unfold uREPL; omega
    · rcases List.mem_singleton.mp h with rfl
      exact ht

theorem foldl_unqStep_bound : ∀ (ts : List QTok) (out : PyStr) (st : U8St),
    (∀ c ∈ out, c < 1310720) → u8stOK st → (∀ t ∈ ts, tokOK t) →
    (∀ c ∈ (ts.foldl unqStep (out, st)).1, c < 1310720) ∧
      u8stOK (ts.foldl unqStep (out, st)).2
  | [], _, _, ho, hst, _ => ⟨ho, hst⟩
  | t :: ts, out, st, ho, hst, hts => by
    have hs := unqStep_bound out st t ho hst (hts t (List.mem_cons_self t ts))
    rw [List.foldl_cons]
    rcases hu : unqStep (out, st) t with ⟨out', st'⟩
    rw [hu] at hs
    exact foldl_unqStep_bound ts out' st' hs.1 hs.2
      (fun x hx => hts x (List.mem_cons_of_mem t hx))

theorem unqTokens_bound {ts : List QTok} (h : ∀ t ∈ ts, tokOK t) :
    ∀ c ∈ unqTokens ts, c < 1310720 := by
  unfold unqTokens
  obtain ⟨h1, _⟩ :=
    foldl_unqStep_bound ts [] none (fun c hc => absurd hc (List.not_mem_nil c)) trivial h
  intro c hc
  rcases List.mem_append.mp hc with hc | hc
  · exact h1 c hc
  · rw [u8flush_mem hc]; unfold uREPL; omega

theorem hexVal_le {c a : Nat} (h : hexVal c = some a) : a ≤ 15 := by
  unfold hexVal at h
  by_cases h1 : (48 ≤ c && c ≤ 57) = true
  · rw [if_pos h1] at h
    simp only [Bool.and_eq_true, decide_eq_true_eq] at h1
    simp only [Option.some.injEq] at h
    omega
  · rw [if_neg h1] at h
    by_cases h2 : (65 ≤ c && c ≤ 70) = true
    · rw [if_pos h2] at h
      simp only [Bool.and_eq_true, decide_eq_true_eq] at h2
      simp only [Option.some.injEq] at h
      omega
    · rw [if_neg h2] at h
      by_cases h3 : (97 ≤ c && c ≤ 102) = true
      · rw [if_pos h3] at h
        simp only [Bool.and_eq_true, decide_eq_true_eq] at h3
        simp only [Option.some.injEq] at h
        omega
      · rw [if_neg h3] at h
        cases h

theorem qtokStep_bound (ts : List QTok) (st : QSt) (c : Nat)
    (hts : ∀ t ∈ ts, tokOK t) (hst : qstOK st) (hc : c < 1310720) :
    (∀ t ∈ (qtokStep (ts, st) c).1, tokOK t) ∧ qstOK (qtokStep (ts, st) c).2 := by
  have hchr : tokOK (QTok.chr c) := hc
  have h37 : tokOK (QTok.chr 37) := by show (37 : Nat) < 1310720; omega
  cases st with
  | none =>
    simp only [qtokStep]
    by_cases h : c = 37
    · rw [if_pos h]
      exact ⟨hts, trivial⟩
    · rw [if_neg h]
      refine ⟨?_, trivial⟩
      intro t ht
      rcases List.mem_append.mp ht with ht | ht
      · exact hts t ht
      · rcases List.mem_singleton.mp ht with rfl
        exact hchr
  | some o =>
    cases o with
    | none =>
      simp only [qtokStep]
      cases hv : hexVal c with
      | some a =>
        refine ⟨hts, ?_⟩
        show qstOK (some (some c))
        exact hc
      | none =>
        by_cases h : c = 37
        · rw [if_pos h]
          refine ⟨?_, trivial⟩
          intro t ht
          rcases List.mem_append.mp ht with ht | ht
          · exact hts t ht
          · rcases List.mem_singleton.mp ht with rfl
            exact h37
        · rw [if_neg h]
          refine ⟨?_, trivial⟩
          intro t ht
          rcases List.mem_append.mp ht with ht | ht
          · exact hts t ht
          · rcases List.mem_cons.mp ht with rfl | ht
            · exact h37
            · rcases List.mem_singleton.mp ht with rfl
              exact hchr
    | some h1 =>
      have hh1 : h1 < 1310720 := hst
      simp only [qtokStep]
      cases hv1 : hexVal h1 with
      | some a =>
        cases hv : hexVal c with
        | some b =>
          refine ⟨?_, trivial⟩
          intro t ht
          rcases List.mem_append.mp ht with ht | ht
          · exact hts t ht
          · rcases List.mem_singleton.mp ht with rfl
            show 16 * a + b < 256
            have := hexVal_le hv1
            have := hexVal_le hv
            omega
        | none =>
          by_cases h : c = 37
          · rw [if_pos h]
            refine ⟨?_, trivial⟩
            intro t ht
            rcases List.mem_append.mp ht with ht | ht
            · exact hts t ht
            · rcases List.mem_cons.mp ht with rfl | ht
              · exact h37
              · rcases List.mem_singleton.mp ht with rfl
                exact hh1
          · rw [if_neg h]
            refine ⟨?_, trivial⟩
            intro t ht
            rcases List.mem_append.mp ht with ht | ht
            · exact hts t ht
            · rcases List.mem_cons.mp ht with rfl | ht
              · exact h37
              · rcases List.mem_cons.mp ht with rfl | ht
                · exact hh1
                · rcases List.mem_singleton.mp ht with rfl
                  exact hchr
      | none =>
        by_cases h : c = 37
        · rw [if_pos h]
          refine ⟨?_, trivial⟩
          intro t ht
          rcases List.mem_append.mp ht with ht | ht
          · exact hts t ht
          · rcases List.mem_cons.mp ht with rfl | ht
            · exact h37
            · rcases List.mem_singleton.mp ht with rfl
              exact hh1
        · rw [if_neg h]
          refine ⟨?_, trivial⟩
          intro t ht
          rcases List.mem_append.mp ht with ht | ht
          · exact hts t ht
          · rcases List.mem_cons.mp ht with rfl | ht
            · exact h37
            · rcases List.mem_cons.mp ht with rfl | ht
              · exact hh1
              · rcases List.mem_singleton.mp ht with rfl
                exact hchr

theorem foldl_qtokStep_bound : ∀ (s : PyStr) (ts : List QTok) (st : QSt),
    (∀ t ∈ ts, tokOK t) → qstOK st → (∀ c ∈ s, c < 1310720) →
    (∀ t ∈ (s.foldl qtokStep (ts, st)).1, tokOK t) ∧ qstOK (s.foldl qtokStep (ts, st)).2
  | [], _, _, hts, hst, _ => ⟨hts, hst⟩
  | c :: cs, ts, st, hts, hst, hs => by
    have h1 := qtokStep_bound ts st c hts hst (hs c (List.mem_cons_self c cs))
    rw [List.foldl_cons]
    rcases hq : qtokStep (ts, st) c with ⟨ts', st'⟩
    rw [hq] at h1
    exact foldl_qtokStep_bound cs ts' st' h1.1 h1.2
      (fun x hx => hs x (List.mem_cons_of_mem c hx))

theorem qtokenize_bound {s : PyStr} (h : ∀ c ∈ s, c < 1310720) :
    ∀ t ∈ qtokenize s, tokOK t := by
  unfold qtokenize
  obtain ⟨h1, h2⟩ :=
    foldl_qtokStep_bound s [] none (fun t ht => absurd ht (List.not_mem_nil t)) trivial h
  intro t ht
  rcases List.mem_append.mp ht with ht | ht
  · exact h1 t ht
  · rcases hst : (s.foldl qtokStep ([], none)).2 with _ | o
    · rw [hst] at ht
      cases ht
    · rw [hst] at ht h2
      cases o with
      | none =>
        rcases List.mem_singleton.mp ht with rfl
        show (37 : Nat) < 1310720
        omega
      | some h1v =>
        have hb : h1v < 1310720 := h2
        rcases List.mem_cons.mp ht with rfl | ht
        · show (37 : Nat) < 1310720
          omega
        · rcases List.mem_singleton.mp ht with rfl
          exact hb

theorem unquotePlus_bound {s : PyStr} (h : ∀ c ∈ s, c < 1310720) :
    ∀ c ∈ unquotePlus s, c < 1310720 := by
  unfold unquotePlus
  apply unqTokens_bound
  apply qtokenize_bound
  intro c hc
  unfold plusToSpace at hc
  rw [List.mem_map] at hc
  obtain ⟨d, hd, he⟩ := hc
  by_cases h43 : d = 43
  · rw [if_pos h43] at he
    omega
  · rw [if_neg h43] at he
    subst he
    exact h d hd

theorem parseQsl_bound {qs : PyStr} (h : ∀ c ∈ qs, c < 1310720) :
    ∀ kv ∈ parseQsl qs, (∀ c ∈ kv.1, c < 1310720) ∧ ∀ c ∈ kv.2, c < 1310720 := by
  intro kv hkv
  unfold parseQsl at hkv
  rw [List.mem_filterMap] at hkv
  obtain ⟨piece, hp, hkv⟩ := hkv
  have hpb : ∀ c ∈ piece, c < 1310720 := fun c hc => h c (splitAllOn_mem hp c hc)
  by_cases hpe : piece = []
  · rw [if_pos hpe] at hkv
    cases hkv
  · rw [if_neg hpe] at hkv
    cases hsp : splitOnce 61 piece with
    | some ab =>
      rw [hsp] at hkv
      obtain ⟨a, b⟩ := ab
      simp only [Option.some.injEq] at hkv
      subst hkv
      obtain ⟨he, _⟩ := splitOnce_eq hsp
      constructor
      · exact fun c hc => unquotePlus_bound
          (fun d hd => hpb d (by rw [he]; exact List.mem_append_left _ hd)) c hc
      · exact fun c hc => unquotePlus_bound
          (fun d hd => hpb d
            (by rw [he]; exact List.mem_append_right _ (List.mem_cons_of_mem _ hd))) c hc
    | none =>
      rw [hsp] at hkv
      simp only [Option.some.injEq] at hkv
      subst hkv
      constructor
      · exact fun c hc => unquotePlus_bound hpb c hc
      · exact fun c hc => unquotePlus_bound (by intro d hd; cases hd) c hc

theorem keptParams_bound {q : PyStr} (h : ∀ c ∈ q, c < 1310720) :
    ∀ kv ∈ keptParams q, (∀ c ∈ kv.1, c < 1310720) ∧ ∀ c ∈ kv.2, c < 1310720 :=
  fun kv hkv => parseQsl_bound h kv (List.mem_of_mem_filter hkv)

/-! ### urlencode / parse_qsl round trip -/

theorem quotePlus_chars {s : PyStr} (h : ∀ c ∈ s, c < 1310720) :
    ∀ c ∈ quotePlus s, (isAlwaysSafe c || c = 43 || c = 37) = true := by
  intro c hc
  unfold quotePlus at hc
  rw [List.mem_flatMap] at hc
  obtain ⟨d, hd, hc⟩ := hc
  by_cases hs : isAlwaysSafe d = true
  · rw [if_pos hs] at hc
    rcases List.mem_singleton.mp hc with rfl
    simp [hs]
  · rw [if_neg hs] at hc
    by_cases h32 : d = 32
    · rw [if_pos h32] at hc
      rcases List.mem_singleton.mp hc with rfl
      decide
    · rw [if_neg h32] at hc
      rcases pctRun_mem (h d hd) hc with rfl | hr | hr
      · decide
      · simp only [Bool.or_eq_true, isAlwaysSafe, Bool.and_eq_true, decide_eq_true_eq]
        omega
      · simp only [Bool.or_eq_true, isAlwaysSafe, Bool.and_eq_true, decide_eq_true_eq]
        omega

theorem quoteChar_facts {c : Nat} (h : (isAlwaysSafe c || c = 43 || c = 37) = true) :
    c ≠ 38 ∧ c ≠ 61 ∧ c ≠ 35 ∧ c ≠ 63 ∧ c ≠ 9 ∧ c ≠ 10 ∧ c ≠ 13 := by
  simp only [Bool.or_eq_true, isAlwaysSafe, Bool.and_eq_true, decide_eq_true_eq] at h
  omega

theorem urlencodeL_chars {ps : List (PyStr × PyStr)}
    (h : ∀ kv ∈ ps, (∀ c ∈ kv.1, c < 1310720) ∧ ∀ c ∈ kv.2, c < 1310720) :
    ∀ c ∈ urlencodeL ps, qcharOK c = true := by
  intro c hc
  unfold urlencodeL at hc
  rcases joinSep_mem hc with rfl | ⟨p, hp, hcp⟩
  · decide
  · rw [List.mem_map] at hp
    obtain ⟨kv, hkv, rfl⟩ := hp
    rcases List.mem_append.mp hcp with h1 | h1
    · have := quotePlus_chars (h kv hkv).1 c h1
      simp only [qcharOK, Bool.or_eq_true] at this ⊢
      tauto
    · rcases List.mem_cons.mp h1 with rfl | h1
      · decide
      · have := quotePlus_chars (h kv hkv).2 c h1
        simp only [qcharOK, Bool.or_eq_true] at this ⊢
        tauto

theorem qcharOK_facts {c : Nat} (h : qcharOK c = true) :
    c ≠ 35 ∧ c ≠ 63 ∧ c ≠ 9 ∧ c ≠ 10 ∧ c ≠ 13 ∧ c ≠ 47 ∧ c ≠ 58 := by
  simp only [qcharOK, Bool.or_eq_true, isAlwaysSafe, Bool.and_eq_true,
    decide_eq_true_eq] at h
  omega

theorem filterMap_eq_self {α : Type} {g : α → Option α} : ∀ {l : List α},
    (∀ x ∈ l, g x = some x) → l.filterMap g = l
  | [], _ => rfl
  | x :: xs, h => by
    rw [List.filterMap_cons]
    rw [h x (List.mem_cons_self x xs),
        filterMap_eq_self (fun y hy => h y (List.mem_cons_of_mem x hy))]

theorem parseQsl_urlencodeL (ps : List (PyStr × PyStr))
    (h : ∀ kv ∈ ps, (∀ c ∈ kv.1, c < 1310720) ∧ ∀ c ∈ kv.2, c < 1310720) :
    parseQsl (urlencodeL ps) = ps := by
  cases ps with
  | nil => rfl
  | cons p ps' =>
    unfold parseQsl urlencodeL
    rw [splitAllOn_joinSep (by simp) ?pieces]
    case pieces =>
      intro piece hp c hc
      rw [List.mem_map] at hp
      obtain ⟨kv, hkv, rfl⟩ := hp
      rcases List.mem_append.mp hc with h1 | h1
      · exact (quoteChar_facts (quotePlus_chars (h kv hkv).1 c h1)).1
      · rcases List.mem_cons.mp h1 with rfl | h1
        · omega
        · exact (quoteChar_facts (quotePlus_chars (h kv hkv).2 c h1)).1
    rw [List.filterMap_map]
    apply filterMap_eq_self
    intro kv hkv
    show (if quotePlus kv.1 ++ 61 :: quotePlus kv.2 = ([] : PyStr) then none
          else match splitOnce 61 (quotePlus kv.1 ++ 61 :: quotePlus kv.2) with
            | some (a, b) => some (unquotePlus a, unquotePlus b)
            | none => some (unquotePlus (quotePlus kv.1 ++ 61 :: quotePlus kv.2),
                unquotePlus [])) = some kv
    rw [if_neg (by simp)]
    rw [splitOnce_append _
      (fun c hc => (quoteChar_facts (quotePlus_chars (h kv hkv).1 c hc)).2.1)]
    show some (unquotePlus (quotePlus kv.1), unquotePlus (quotePlus kv.2)) = some kv
    rw [unquotePlus_quotePlus _ (h kv hkv).1, unquotePlus_quotePlus _ (h kv hkv).2]

theorem keptParams_urlencodeL {q : PyStr} (h : ∀ c ∈ q, c < 1310720) :
    keptParams (urlencodeL (keptParams q)) = keptParams q := by
  have e : parseQsl (urlencodeL (keptParams q)) = keptParams q :=
    parseQsl_urlencodeL _ (keptParams_bound h)
  show (parseQsl (urlencodeL (keptParams q))).filter (fun kv => !isTrackingKey kv.1) =
    keptParams q
  rw [e]
  show ((parseQsl q).filter (fun kv => !isTrackingKey kv.1)).filter
      (fun kv => !isTrackingKey kv.1) = keptParams q
  rw [List.filter_filter]
  simp only [Bool.and_self]
  rfl

/-! ### urlsplit / urlunsplit round trip -/

theorem pyLower1_alpha {c : Nat} (h : isAsciiAlpha c = true) :
    isAsciiAlpha (pyLower1 c) = true := by
  simp only [isAsciiAlpha, Bool.or_eq_true, Bool.and_eq_true, decide_eq_true_eq] at h ⊢
  unfold pyLower1
  by_cases h69 : (65 ≤ c && c ≤ 90) = true
  · rw [if_pos h69]
    simp only [Bool.and_eq_true, decide_eq_true_eq] at h69
    omega
  · rw [if_neg h69]
    simp only [Bool.and_eq_true, decide_eq_true_eq, not_and] at h69
    omega

theorem pyLower1_scheme {c : Nat} (h : isSchemeChar c = true) :
    isSchemeChar (pyLower1 c) = true := by
  simp only [isSchemeChar, isAsciiAlpha, Bool.or_eq_true, Bool.and_eq_true,
    decide_eq_true_eq] at h ⊢
  unfold pyLower1
  by_cases h69 : (65 ≤ c && c ≤ 90) = true
  · rw [if_pos h69]
    simp only [Bool.and_eq_true, decide_eq_true_eq] at h69
    omega
  · rw [if_neg h69]
    simp only [Bool.and_eq_true, decide_eq_true_eq, not_and] at h69
    omega

theorem pyLower1_91 (c : Nat) : pyLower1 c = 91 ↔ c = 91 := by
  unfold pyLower1
  by_cases h : (65 ≤ c && c ≤ 90) = true
  · rw [if_pos h]
    simp only [Bool.and_eq_true, decide_eq_true_eq] at h
    omega
  · rw [if_neg h]

theorem pyLower1_93 (c : Nat) : pyLower1 c = 93 ↔ c = 93 := by
  unfold pyLower1
  by_cases h : (65 ≤ c && c ≤ 90) = true
  · rw [if_pos h]
    simp only [Bool.and_eq_true, decide_eq_true_eq] at h
    omega
  · rw [if_neg h]

theorem pyLower_contains_of {k : Nat} (hk : ∀ c, pyLower1 c = k ↔ c = k) :
    ∀ (nl : PyStr), (pyLower nl).contains k = nl.contains k
  | [] => rfl
  | c :: cs => by
    show (pyLower1 c :: pyLower cs).contains k = (c :: cs).contains k
    rw [List.contains_cons, List.contains_cons, pyLower_contains_of hk cs]
    have he : (k == pyLower1 c) = (k == c) := by
      by_cases hc : c = k
      · subst hc
        rw [(hk c).mpr rfl]
      · have h2 : pyLower1 c ≠ k := fun he => hc ((hk c).mp he)
        simp [Ne.symm hc, Ne.symm h2]
    rw [he]

theorem bracketBad_pyLower (nl : PyStr) : bracketBad (pyLower nl) = bracketBad nl := by
  unfold bracketBad
  rw [pyLower_contains_of pyLower1_91 nl, pyLower_contains_of pyLower1_93 nl]

theorem pyLower1_delim_free {c : Nat} (h : ¬(c = 47 ∨ c = 63 ∨ c = 35)) :
    ¬(pyLower1 c = 47 ∨ pyLower1 c = 63 ∨ pyLower1 c = 35) := by
  unfold pyLower1
  by_cases h69 : (65 ≤ c && c ≤ 90) = true
  · rw [if_pos h69]
    simp only [Bool.and_eq_true, decide_eq_true_eq] at h69
    omega
  · rw [if_neg h69]
    exact h

theorem pyLower1_clean {c : Nat} (h : ¬(c = 9 ∨ c = 13 ∨ c = 10)) :
    ¬(pyLower1 c = 9 ∨ pyLower1 c = 13 ∨ pyLower1 c = 10) := by
  unfold pyLower1
  by_cases h69 : (65 ≤ c && c ≤ 90) = true
  · rw [if_pos h69]
    simp only [Bool.and_eq_true, decide_eq_true_eq] at h69
    omega
  · rw [if_neg h69]
    exact h

theorem rstripSlash_mem {s : PyStr} {c : Nat} (h : c ∈ rstripSlash s) : c ∈ s := by
  unfold rstripSlash at h
  rw [List.mem_reverse] at h
  exact List.mem_reverse.mp (List.Sublist.mem h (List.dropWhile_sublist _))

theorem rstripSlash_prefix (s : PyStr) : ∃ t, rstripSlash s ++ t = s := by
  obtain ⟨t, ht⟩ := List.dropWhile_suffix (l := s.reverse) (fun c => decide (c = 47))
  refine ⟨t.reverse, ?_⟩
  show (s.reverse.dropWhile _).reverse ++ t.reverse = s
  rw [← List.reverse_append, ht, List.reverse_reverse]

theorem pathNorm_mem {p : PyStr} {c : Nat} (h : c ∈ pathNorm p) : c ∈ p := by
  by_cases h0 : p = [] ∨ p = [47]
  · have e : pathNorm p = p := by
      rcases h0 with rfl | rfl
      · rfl
      · rfl
    rw [e] at h
    exact h
  · push_neg at h0
    have e : pathNorm p = rstripSlash p := by simp [pathNorm, h0.1, h0.2]
    rw [e] at h
    exact rstripSlash_mem h

theorem pathNorm_shape {p : PyStr} (h : p = [] ∨ p.take 1 = [47]) :
    pathNorm p = [] ∨ (pathNorm p).take 1 = [47] := by
  by_cases h0 : p = [] ∨ p = [47]
  · rcases h0 with rfl | rfl
    · left; rfl
    · right; rfl
  · push_neg at h0
    have e : pathNorm p = rstripSlash p := by simp [pathNorm, h0.1, h0.2]
    rw [e]
    rcases h with rfl | h
    · exact absurd rfl h0.1
    · cases p with
      | nil => exact absurd rfl h0.1
      | cons c cs =>
        have hc : c = 47 := by
          have : (c :: cs).take 1 = [c] := rfl
          rw [this] at h
          injection h with h1 _
        subst hc
        obtain ⟨t, ht⟩ := rstripSlash_prefix (47 :: cs)
        cases hr : rstripSlash (47 :: cs) with
        | nil => exact .inl rfl
        | cons r rs =>
          right
          rw [hr, List.cons_append] at ht
          injection ht with h1 _
          rw [h1]
          rfl

theorem takeNetloc_props : ∀ (s : PyStr),
    (∀ c ∈ (takeNetloc s).1, ¬(c = 47 ∨ c = 63 ∨ c = 35)) ∧
    ((takeNetloc s).2 = [] ∨
      ∃ c cs, (takeNetloc s).2 = c :: cs ∧ (c = 47 ∨ c = 63 ∨ c = 35)) ∧
    (takeNetloc s).1 ++ (takeNetloc s).2 = s
  | [] => ⟨fun c hc => absurd hc (List.not_mem_nil c), .inl rfl, rfl⟩
  | c :: cs => by
    obtain ⟨ih1, ih2, ih3⟩ := takeNetloc_props cs
    simp only [takeNetloc]
    by_cases hd : (c = 47 || c = 63 || c = 35) = true
    · rw [if_pos hd]
      simp only [Bool.or_eq_true, decide_eq_true_eq] at hd
      exact ⟨fun x hx => absurd hx (List.not_mem_nil x),
        .inr ⟨c, cs, rfl, by tauto⟩, rfl⟩
    · rw [if_neg hd]
      simp only [Bool.or_eq_true, decide_eq_true_eq] at hd
      push_neg at hd
      refine ⟨?_, ih2, ?_⟩
      · intro x hx
        rcases List.mem_cons.mp hx with rfl | hx
        · tauto
        · exact ih1 x hx
      · rw [List.cons_append, ih3]

theorem takeNetloc_append : ∀ {a : PyStr} (b : PyStr),
    (∀ c ∈ a, ¬(c = 47 ∨ c = 63 ∨ c = 35)) →
    (b = [] ∨ ∃ c cs, b = c :: cs ∧ (c = 47 ∨ c = 63 ∨ c = 35)) →
    takeNetloc (a ++ b) = (a, b)
  | [], b, _, hb => by
    rw [List.nil_append]
    rcases hb with rfl | ⟨c, cs, rfl, hc⟩
    · rfl
    · simp only [takeNetloc]
      rw [if_pos (by rcases hc with rfl | rfl | rfl <;> rfl)]
  | x :: xs, b, ha, hb => by
    rw [List.cons_append]
    simp only [takeNetloc]
    have hx := ha x (List.mem_cons_self x xs)
    rw [if_neg (by simp only [Bool.or_eq_true, decide_eq_true_eq]; tauto),
        takeNetloc_append b (fun c hc => ha c (List.mem_cons_of_mem x hc)) hb]

theorem netlocSplit_props (u2 : PyStr) :
    (∀ c ∈ (netlocSplit u2).1, ¬(c = 47 ∨ c = 63 ∨ c = 35)) ∧
    ((netlocSplit u2).2 = [] ∨
      ∃ c cs, (netlocSplit u2).2 = c :: cs ∧ (c = 47 ∨ c = 63 ∨ c = 35) ∨
        (netlocSplit u2).1 = []) ∧
    (∀ c, c ∈ (netlocSplit u2).1 ∨ c ∈ (netlocSplit u2).2 → c ∈ u2) := by
  unfold netlocSplit
  by_cases ht : u2.take 2 = [47, 47]
  · rw [if_pos ht]
    obtain ⟨h1, h2, h3⟩ := takeNetloc_props (u2.drop 2)
    refine ⟨h1, ?_, ?_⟩
    · rcases h2 with h2 | ⟨c, cs, hcs, hc⟩
      · exact .inl h2
      · exact .inr ⟨c, cs, .inl ⟨hcs, hc⟩⟩
    · intro c hc
      have hm : c ∈ u2.drop 2 := by
        rw [← h3]
        rcases hc with hc | hc
        · exact List.mem_append_left _ hc
        · exact List.mem_append_right _ hc
      exact List.mem_of_mem_drop hm
  · rw [if_neg ht]
    refine ⟨fun c hc => absurd hc (List.not_mem_nil c),
      .inr ⟨0, [], .inr rfl⟩, ?_⟩
    intro c hc
    rcases hc with hc | hc
    · cases hc
    · exact hc

theorem schemeSplit_eq_none {u : PyStr} (h : splitOnce 58 u = none) :
    schemeSplit u = ([], u) := by
  unfold schemeSplit
  rw [h]

theorem schemeSplit_eq_some_nil {u b : PyStr} (h : splitOnce 58 u = some ([], b)) :
    schemeSplit u = ([], u) := by
  unfold schemeSplit
  rw [h]

theorem schemeSplit_eq_some_cons {u b : PyStr} {c0 : Nat} {rest : PyStr}
    (h : splitOnce 58 u = some (c0 :: rest, b)) :
    schemeSplit u = if (isAsciiAlpha c0 && rest.all isSchemeChar) = true
      then (pyLower (c0 :: rest), b) else ([], u) := by
  unfold schemeSplit
  rw [h]

theorem schemeSplit_head_nonalpha {c : Nat} (cs : PyStr) (h : isAsciiAlpha c = false) :
    schemeSplit (c :: cs) = ([], c :: cs) := by
  cases hsp : splitOnce 58 (c :: cs) with
  | none => exact schemeSplit_eq_none hsp
  | some ab =>
    obtain ⟨a, b⟩ := ab
    cases a with
    | nil => exact schemeSplit_eq_some_nil hsp
    | cons a0 as =>
      obtain ⟨he, _⟩ := splitOnce_eq hsp
      rw [List.cons_append] at he
      injection he with h1 _
      rw [schemeSplit_eq_some_cons hsp, if_neg (by rw [← h1, h]; simp)]

theorem schemeSplit_valid_append {c0 : Nat} {rest : PyStr} (tail : PyStr)
    (hc0 : isAsciiAlpha c0 = true) (hrest : rest.all isSchemeChar = true) :
    schemeSplit ((c0 :: rest) ++ 58 :: tail) = (pyLower (c0 :: rest), tail) := by
  have hno : ∀ c ∈ c0 :: rest, c ≠ 58 := by
    intro c hc
    rcases List.mem_cons.mp hc with rfl | hc
    · simp only [isAsciiAlpha, Bool.or_eq_true, Bool.and_eq_true,
        decide_eq_true_eq] at hc0
      omega
    · have := List.all_eq_true.mp hrest c hc
      simp only [isSchemeChar, isAsciiAlpha, Bool.or_eq_true, Bool.and_eq_true,
        decide_eq_true_eq] at this
      omega
  rw [schemeSplit_eq_some_cons (splitOnce_append tail hno),
      if_pos (by simp [hc0, hrest])]

theorem schemeSplit_shape (u : PyStr) :
    (schemeSplit u).1 = [] ∨ ∃ c0 rest, (schemeSplit u).1 = pyLower (c0 :: rest) ∧
      isAsciiAlpha c0 = true ∧ rest.all isSchemeChar = true := by
  cases hsp : splitOnce 58 u with
  | none => rw [schemeSplit_eq_none hsp]; left; rfl
  | some ab =>
    obtain ⟨a, b⟩ := ab
    cases a with
    | nil => rw [schemeSplit_eq_some_nil hsp]; left; rfl
    | cons c0 rest =>
      rw [schemeSplit_eq_some_cons hsp]
      by_cases hcond : (isAsciiAlpha c0 && rest.all isSchemeChar) = true
      · rw [if_pos hcond]
        rw [Bool.and_eq_true] at hcond
        exact .inr ⟨c0, rest, rfl, hcond.1, hcond.2⟩
      · rw [if_neg hcond]
        left
        rfl

theorem schemeSplit_snd_mem {u : PyStr} {c : Nat} (h : c ∈ (schemeSplit u).2) : c ∈ u := by
  cases hsp : splitOnce 58 u with
  | none => rw [schemeSplit_eq_none hsp] at h; exact h
  | some ab =>
    obtain ⟨a, b⟩ := ab
    obtain ⟨he, _⟩ := splitOnce_eq hsp
    cases a with
    | nil => rw [schemeSplit_eq_some_nil hsp] at h; exact h
    | cons a0 as =>
      rw [schemeSplit_eq_some_cons hsp] at h
      by_cases hcond : (isAsciiAlpha a0 && as.all isSchemeChar) = true
      · rw [if_pos hcond] at h
        rw [he]
        exact List.mem_append_right _ (List.mem_cons_of_mem _ h)
      · rw [if_neg hcond] at h
        exact h

theorem qpath_shape {u3 : PyStr}
    (h : u3 = [] ∨ ∃ c cs, u3 = c :: cs ∧ (c = 47 ∨ c = 63 ∨ c = 35)) :
    (splitAtChar 63 (splitAtChar 35 u3).1).1 = [] ∨
      ((splitAtChar 63 (splitAtChar 35 u3).1).1).take 1 = [47] := by
  rcases h with rfl | ⟨c, cs, rfl, hc⟩
  · left; rfl
  · rcases hc with rfl | rfl | rfl
    · obtain ⟨x, hx⟩ := @splitAtChar_fst_cons_ne 35 47 cs (by decide)
      rw [hx]
      obtain ⟨y, hy⟩ := @splitAtChar_fst_cons_ne 63 47 x (by decide)
      rw [hy]
      right
      rfl
    · obtain ⟨x, hx⟩ := @splitAtChar_fst_cons_ne 35 63 cs (by decide)
      rw [hx, splitAtChar_fst_cons_eq x]
      left
      rfl
    · rw [splitAtChar_fst_cons_eq cs]
      left
      rfl

theorem urlsplitE_ok_inv {t : PyStr} {s : SplitRes} (h : urlsplitE t = .ok s) :
    (∀ c ∈ s.netloc, ¬(c = 47 ∨ c = 63 ∨ c = 35)) ∧
    bracketBad s.netloc = false ∧
    (s.netloc ≠ [] → s.path = [] ∨ s.path.take 1 = [47]) ∧
    (∀ c ∈ s.path, c ≠ 35 ∧ c ≠ 63) ∧
    (s.scheme = [] ∨ ∃ c0 rest, s.scheme = pyLower (c0 :: rest) ∧
      isAsciiAlpha c0 = true ∧ rest.all isSchemeChar = true) ∧
    (∀ c, c ∈ s.netloc ∨ c ∈ s.path ∨ c ∈ s.query →
      c ∈ scrubUrl (t.dropWhile isC0OrSpace)) := by
  simp only [urlsplitE] at h
  rcases hs1 : schemeSplit (scrubUrl (t.dropWhile isC0OrSpace)) with ⟨sch, u2⟩
  rw [hs1] at h
  rcases hn : netlocSplit u2 with ⟨nl, u3⟩
  rw [hn] at h
  rcases hf : splitAtChar 35 u3 with ⟨rest1, frag⟩
  rw [hf] at h
  rcases hq : splitAtChar 63 rest1 with ⟨pa, qu⟩
  rw [hq] at h
  obtain ⟨p1, p2, p3⟩ := netlocSplit_props u2
  rw [hn] at p1 p2 p3
  by_cases hbr : bracketBad nl = true
  · rw [if_pos hbr] at h
    cases h
  · rw [if_neg hbr] at h
    injection h with h
    subst h
    simp only [Bool.not_eq_true] at hbr
    have hm35 := splitAtChar_fst_no_sep 35 u3
    rw [hf] at hm35
    have hm63 := splitAtChar_fst_no_sep 63 rest1
    rw [hq] at hm63
    have hmem35 : ∀ c, c ∈ rest1 ∨ c ∈ frag → c ∈ u3 := by
      intro c hc
      have := @splitAtChar_mem 35 u3 c
      rw [hf] at this
      exact this hc
    have hmem63 : ∀ c, c ∈ pa ∨ c ∈ qu → c ∈ rest1 := by
      intro c hc
      have := @splitAtChar_mem 63 rest1 c
      rw [hq] at this
      exact this hc
    have hmemu2 : ∀ c, c ∈ u2 → c ∈ scrubUrl (t.dropWhile isC0OrSpace) := by
      intro c hc
      have := schemeSplit_snd_mem (u := scrubUrl (t.dropWhile isC0OrSpace)) (c := c)
      rw [hs1] at this
      exact this hc
    refine ⟨p1, hbr, ?_, ?_, ?_, ?_⟩
    · intro hnl
      have hu3 : u3 = [] ∨ ∃ c cs, u3 = c :: cs ∧ (c = 47 ∨ c = 63 ∨ c = 35) := by
        rcases p2 with h2 | ⟨c, cs, ⟨hcs, hdel⟩ | hnil⟩
        · exact .inl h2
        · exact .inr ⟨c, cs, hcs, hdel⟩
        · exact absurd hnil hnl
      have := qpath_shape hu3
      rw [hf, hq] at this
      exact this
    · intro c hc
      exact ⟨hm35 c (hmem63 c (.inl hc)), hm63 c hc⟩
    · have := schemeSplit_shape (scrubUrl (t.dropWhile isC0OrSpace))
      rw [hs1] at this
      exact this
    · intro c hc
      rcases hc with hc | hc | hc
      · exact hmemu2 c (p3 c (.inl hc))
      · exact hmemu2 c (p3 c (.inr (hmem35 c (.inl (hmem63 c (.inl hc))))))
      · exact hmemu2 c (p3 c (.inr (hmem35 c (.inl (hmem63 c (.inr hc))))))

theorem urlunsplit_netloc {r : SplitRes} (hnl : r.netloc ≠ [])
    (hp : r.path = [] ∨ r.path.take 1 = [47]) (hf : r.fragment = []) :
    urlunsplit r =
      (if r.scheme = [] then 47 :: 47 :: r.netloc ++ r.path
       else r.scheme ++ 58 :: (47 :: 47 :: r.netloc ++ r.path)) ++
      (if r.query = [] then [] else 63 :: r.query) := by
  rcases hp with hp | hp
  · by_cases hs : r.scheme = []
    · by_cases hq : r.query = []
      · simp [urlunsplit, hnl, hs, hq, hf, hp]
      · simp [urlunsplit, hnl, hs, hq, hf, hp]
    · by_cases hq : r.query = []
      · simp [urlunsplit, hnl, hs, hq, hf, hp]
      · simp [urlunsplit, hnl, hs, hq, hf, hp]
  · by_cases hs : r.scheme = []
    · by_cases hq : r.query = []
      · simp [urlunsplit, hnl, hs, hq, hf, hp]
      · simp [urlunsplit, hnl, hs, hq, hf, hp]
    · by_cases hq : r.query = []
      · simp [urlunsplit, hnl, hs, hq, hf, hp]
      · simp [urlunsplit, hnl, hs, hq, hf, hp]

theorem urlsplitE_compute {w sch : PyStr} {nl p q : PyStr}
    (e1 : w.dropWhile isC0OrSpace = w)
    (e2 : scrubUrl w = w)
    (e3 : schemeSplit w =
      (sch, 47 :: 47 :: (nl ++ (p ++ (if q = [] then [] else 63 :: q)))))
    (hnld : ∀ c ∈ nl, ¬(c = 47 ∨ c = 63 ∨ c = 35))
    (hbshape : p ++ (if q = [] then [] else 63 :: q) = [] ∨
      ∃ c cs, p ++ (if q = [] then [] else 63 :: q) = c :: cs ∧
        (c = 47 ∨ c = 63 ∨ c = 35))
    (hbr : bracketBad nl = false)
    (h35 : ∀ c ∈ p ++ (if q = [] then [] else 63 :: q), c ≠ 35)
    (e7 : splitAtChar 63 (p ++ (if q = [] then [] else 63 :: q)) = (p, q)) :
    urlsplitE w = .ok ⟨sch, nl, p, q, []⟩ := by
  have e4 : netlocSplit (47 :: 47 :: (nl ++ (p ++ (if q = [] then [] else 63 :: q)))) =
      (nl, p ++ (if q = [] then [] else 63 :: q)) := by
    unfold netlocSplit
    have ht2 : List.take 2
        (47 :: 47 :: (nl ++ (p ++ (if q = [] then [] else 63 :: q)))) = [47, 47] := rfl
    rw [if_pos ht2]
    exact takeNetloc_append _ hnld hbshape
  have e6 : splitAtChar 35 (p ++ (if q = [] then [] else 63 :: q)) =
      (p ++ (if q = [] then [] else 63 :: q), []) := splitAtChar_no_sep h35
  simp only [urlsplitE, e1, e2, e3, e4, e6, e7, hbr]
  rfl

theorem urlsplit_roundtrip {sch nl p q : PyStr}
    (hsch : sch = [] ∨ ∃ c0 rest, sch = pyLower (c0 :: rest) ∧
      isAsciiAlpha c0 = true ∧ rest.all isSchemeChar = true)
    (hnl : nl ≠ [])
    (hnld : ∀ c ∈ nl, ¬(c = 47 ∨ c = 63 ∨ c = 35))
    (hbr : bracketBad nl = false)
    (hp : p = [] ∨ p.take 1 = [47])
    (hpd : ∀ c ∈ p, c ≠ 35 ∧ c ≠ 63)
    (hnlc : ∀ c ∈ nl, ¬(c = 9 ∨ c = 13 ∨ c = 10))
    (hpc : ∀ c ∈ p, ¬(c = 9 ∨ c = 13 ∨ c = 10))
    (hq : ∀ c ∈ q, qcharOK c = true) :
    urlsplitE (urlunsplit ⟨sch, nl, p, q, []⟩) = .ok ⟨sch, nl, p, q, []⟩ ∧
      (urlunsplit ⟨sch, nl, p, q, []⟩).dropWhile isPyWs = urlunsplit ⟨sch, nl, p, q, []⟩ := by
  rw [urlunsplit_netloc hnl hp rfl]
  have hpshape : p = [] ∨ ∃ c cs, p = c :: cs ∧ (c = 47 ∨ c = 63 ∨ c = 35) := by
    rcases hp with rfl | hp1
    · exact .inl rfl
    · cases p with
      | nil => exact .inl rfl
      | cons c cs =>
        have hc : c = 47 := by
          have ht : (c :: cs).take 1 = [c] := rfl
          rw [ht] at hp1
          injection hp1 with h1 _
        subst hc
        exact .inr ⟨47, cs, rfl, .inl rfl⟩
  have hbshape : p ++ (if q = [] then [] else 63 :: q) = [] ∨
      ∃ c cs, p ++ (if q = [] then [] else 63 :: q) = c :: cs ∧
        (c = 47 ∨ c = 63 ∨ c = 35) := by
    rcases hpshape with rfl | ⟨c, cs, rfl, hc⟩
    · rw [List.nil_append]
      by_cases hqe : q = []
      · rw [if_pos hqe]
        exact .inl rfl
      · rw [if_neg hqe]
        exact .inr ⟨63, q, rfl, .inr (.inl rfl)⟩
    · rw [List.cons_append]
      exact .inr ⟨c, cs ++ _, rfl, hc⟩
  have h35 : ∀ c ∈ p ++ (if q = [] then [] else 63 :: q), c ≠ 35 := by
    intro c hc
    rcases List.mem_append.mp hc with hc | hc
    · exact (hpd c hc).1
    · by_cases hqe : q = []
      · rw [if_pos hqe] at hc
        cases hc
      · rw [if_neg hqe] at hc
        rcases List.mem_cons.mp hc with rfl | hc
        · omega
        · exact (qcharOK_facts (hq c hc)).1
  have e7 : splitAtChar 63 (p ++ (if q = [] then [] else 63 :: q)) = (p, q) := by
    by_cases hqe : q = []
    · rw [if_pos hqe, List.append_nil, hqe]
      exact splitAtChar_no_sep (fun c hc => (hpd c hc).2)
    · rw [if_neg hqe]
      exact splitAtChar_append q (fun c hc => (hpd c hc).2)
  have htail : ∀ c ∈ 47 :: 47 :: (nl ++ (p ++ (if q = [] then [] else 63 :: q))),
      ¬(c = 9 ∨ c = 13 ∨ c = 10) := by
    intro c hc
    rcases List.mem_cons.mp hc with rfl | hc
    · omega
    · rcases List.mem_cons.mp hc with rfl | hc
      · omega
      · rcases List.mem_append.mp hc with hc | hc
        · exact hnlc c hc
        · rcases List.mem_append.mp hc with hc | hc
          · exact hpc c hc
          · by_cases hqe : q = []
            · rw [if_pos hqe] at hc
              cases hc
            · rw [if_neg hqe] at hc
              rcases List.mem_cons.mp hc with rfl | hc
              · omega
              · obtain ⟨_, _, h9, h10, h13, _, _⟩ := qcharOK_facts (hq c hc)
                tauto
  rcases hsch with rfl | ⟨c0, rest, rfl, hc0, hrest⟩
  · rw [if_pos rfl]
    have hw : (47 :: 47 :: nl ++ p) ++ (if q = [] then [] else 63 :: q) =
        47 :: 47 :: (nl ++ (p ++ (if q = [] then [] else 63 :: q))) := by
      simp [List.append_assoc]
    rw [hw]
    have e1 : (47 :: 47 :: (nl ++ (p ++ (if q = [] then [] else 63 :: q)))).dropWhile
        isC0OrSpace = 47 :: 47 :: (nl ++ (p ++ (if q = [] then [] else 63 :: q))) := by
      apply dropWhile_eq_self_of_head
      intro c hc
      injection hc with h1
      subst h1
      decide
    have e2 : scrubUrl (47 :: 47 :: (nl ++ (p ++ (if q = [] then [] else 63 :: q)))) =
        47 :: 47 :: (nl ++ (p ++ (if q = [] then [] else 63 :: q))) := by
      apply List.filter_eq_self.mpr
      intro c hc
      have h3 := htail c hc
      push_neg at h3
      simp only [Bool.not_eq_true', Bool.or_eq_false_iff, decide_eq_false_iff_not]
      exact ⟨⟨h3.1, h3.2.1⟩, h3.2.2⟩
    have e3 : schemeSplit (47 :: 47 :: (nl ++ (p ++ (if q = [] then [] else 63 :: q)))) =
        ([], 47 :: 47 :: (nl ++ (p ++ (if q = [] then [] else 63 :: q)))) :=
      schemeSplit_head_nonalpha _ (by decide)
    refine ⟨urlsplitE_compute e1 e2 e3 hnld hbshape hbr h35 e7, ?_⟩
    apply dropWhile_eq_self_of_head
    intro c hc
    injection hc with h1
    subst h1
    decide
  · rw [if_neg (by simp [pyLower])]
    have hmc : pyLower (c0 :: rest) = pyLower1 c0 :: pyLower rest := rfl
    have hw : (pyLower (c0 :: rest) ++ 58 :: (47 :: 47 :: nl ++ p)) ++
        (if q = [] then [] else 63 :: q) =
        (pyLower1 c0 :: pyLower rest) ++
          58 :: (47 :: 47 :: (nl ++ (p ++ (if q = [] then [] else 63 :: q)))) := by
      rw [hmc]
      simp [List.append_assoc]
    rw [hw]
    have hschchars : ∀ c ∈ pyLower1 c0 :: pyLower rest, ¬(c = 9 ∨ c = 13 ∨ c = 10) := by
      intro c hc
      rcases List.mem_cons.mp hc with rfl | hc
      · have := pyLower1_alpha hc0
        simp only [isAsciiAlpha, Bool.or_eq_true, Bool.and_eq_true,
          decide_eq_true_eq] at this
        omega
      · simp only [pyLower, List.mem_map] at hc
        obtain ⟨d, hd, rfl⟩ := hc
        have := pyLower1_scheme (List.all_eq_true.mp hrest d hd)
        simp only [isSchemeChar, isAsciiAlpha, Bool.or_eq_true, Bool.and_eq_true,
          decide_eq_true_eq] at this
        omega
    have e1 : ((pyLower1 c0 :: pyLower rest) ++
        58 :: (47 :: 47 :: (nl ++ (p ++ (if q = [] then [] else 63 :: q))))).dropWhile
          isC0OrSpace =
        (pyLower1 c0 :: pyLower rest) ++
          58 :: (47 :: 47 :: (nl ++ (p ++ (if q = [] then [] else 63 :: q)))) := by
      apply dropWhile_eq_self_of_head
      intro c hc
      injection hc with h1
      subst h1
      have := pyLower1_alpha hc0
      simp only [isAsciiAlpha, Bool.or_eq_true, Bool.and_eq_true,
        decide_eq_true_eq] at this
      simp only [isC0OrSpace, Bool.not_eq_true, decide_eq_false_iff_not]
      omega
    have e2 : scrubUrl ((pyLower1 c0 :: pyLower rest) ++
        58 :: (47 :: 47 :: (nl ++ (p ++ (if q = [] then [] else 63 :: q))))) =
        (pyLower1 c0 :: pyLower rest) ++
          58 :: (47 :: 47 :: (nl ++ (p ++ (if q = [] then [] else 63 :: q)))) := by
      apply List.filter_eq_self.mpr
      intro c hc
      have hcn : ¬(c = 9 ∨ c = 13 ∨ c = 10) := by
        rcases List.mem_append.mp hc with hc | hc
        · exact hschchars c hc
        · rcases List.mem_cons.mp hc with rfl | hc
          · omega
          · exact htail c hc
      push_neg at hcn
      simp only [Bool.not_eq_true', Bool.or_eq_false_iff, decide_eq_false_iff_not]
      exact ⟨⟨hcn.1, hcn.2.1⟩, hcn.2.2⟩
    have e3 : schemeSplit ((pyLower1 c0 :: pyLower rest) ++
        58 :: (47 :: 47 :: (nl ++ (p ++ (if q = [] then [] else 63 :: q))))) =
        (pyLower (c0 :: rest),
          47 :: 47 :: (nl ++ (p ++ (if q = [] then [] else 63 :: q)))) := by
      rw [schemeSplit_valid_append _ (pyLower1_alpha hc0)
        (by
          rw [List.all_eq_true]
          intro x hx
          simp only [pyLower, List.mem_map] at hx
          obtain ⟨d, hd, rfl⟩ := hx
          exact pyLower1_scheme (List.all_eq_true.mp hrest d hd))]
      rw [show pyLower1 c0 :: pyLower rest = pyLower (c0 :: rest) from rfl,
          pyLower_idem]
    refine ⟨urlsplitE_compute e1 e2 e3 hnld hbshape hbr h35 e7, ?_⟩
    apply dropWhile_eq_self_of_head
    intro c hc
    injection hc with h1
    subst h1
    have := pyLower1_alpha hc0
    simp only [isAsciiAlpha, Bool.or_eq_true, Bool.and_eq_true,
      decide_eq_true_eq] at this
    simp only [isPyWs, Bool.or_eq_false_iff, decide_eq_false_iff_not]
    omega

theorem pyStrip_mem {s : PyStr} {c : Nat} (h : c ∈ pyStrip s) : c ∈ s := by
  unfold pyStrip at h
  rw [List.mem_reverse] at h
  have h2 := List.Sublist.mem h (List.dropWhile_sublist _)
  rw [List.mem_reverse] at h2
  exact List.Sublist.mem h2 (List.dropWhile_sublist _)

theorem scrubUrl_mem {s : PyStr} {c : Nat} (h : c ∈ scrubUrl s) : c ∈ s :=
  List.mem_of_mem_filter h

theorem scrubUrl_mem_clean {s : PyStr} {c : Nat} (h : c ∈ scrubUrl s) :
    ¬(c = 9 ∨ c = 13 ∨ c = 10) := by
  have h2 := List.of_mem_filter h
  simp only [Bool.not_eq_true', Bool.or_eq_false_iff, decide_eq_false_iff_not] at h2
  tauto

theorem not_trailing_strip {w : PyStr} (h : hasTrailingWs w = false) :
    w.reverse.dropWhile isPyWs = w.reverse := by
  apply dropWhile_eq_self_of_head
  intro c hc
  unfold hasTrailingWs at h
  cases hr : w.reverse with
  | nil =>
    rw [hr] at hc
    cases hc
  | cons d ds =>
    rw [hr] at hc h
    injection hc with h1
    subst h1
    exact h

/-- Claim C10, amended: `normalize_url` is idempotent on every string of
Unicode code points whose stripped form either fails to parse (the
exception fallback) or parses with a nonempty network location and whose
normalized form carries no trailing whitespace. -/
theorem c10_normalize_idem (u : PyStr) (h : normalizeIdemPreB u = true) :
    normalize_url (normalize_url u) = normalize_url u := by
  unfold normalizeIdemPreB at h
  rw [Bool.and_eq_true] at h
  obtain ⟨hall, hrest0⟩ := h
  have hallm : ∀ c ∈ u, c < 1114112 := by
    intro c hc
    have := List.all_eq_true.mp hall c hc
    simpa using this
  cases hsplit : urlsplitE (pyStrip u) with
  | error e =>
    have e1 : normalize_url u = pyStrip u := by
      simp only [normalize_url]
      rw [hsplit]
    rw [e1]
    simp only [normalize_url]
    rw [pyStrip_idem, hsplit]
  | ok s =>
    rw [hsplit] at hrest0
    have h2 : (s.netloc ≠ [] && !hasTrailingWs (normalize_url u)) = true := hrest0
    rw [Bool.and_eq_true] at h2
    obtain ⟨hnl0, hws0⟩ := h2
    have hnlS : s.netloc ≠ [] := by simpa using hnl0
    have hws : hasTrailingWs (normalize_url u) = false := by simpa using hws0
    obtain ⟨inv1, inv2, inv3, inv4, inv5, inv6⟩ := urlsplitE_ok_inv hsplit
    have hqb : ∀ c ∈ s.query, c < 1310720 := by
      intro c hc
      have h3 := inv6 c (.inr (.inr hc))
      have h4 : c ∈ pyStrip u := by
        have h5 := scrubUrl_mem h3
        exact List.Sublist.mem h5 (List.dropWhile_sublist _)
      have := hallm c (pyStrip_mem h4)
      omega
    have hq' : ∀ c ∈ urlencodeL (keptParams s.query), qcharOK c = true :=
      urlencodeL_chars (keptParams_bound hqb)
    have hnl : pyLower s.netloc ≠ [] := by
      intro hx
      exact hnlS (by simpa [pyLower] using hx)
    have hnld : ∀ c ∈ pyLower s.netloc, ¬(c = 47 ∨ c = 63 ∨ c = 35) := by
      intro c hc
      simp only [pyLower, List.mem_map] at hc
      obtain ⟨d, hd, rfl⟩ := hc
      exact pyLower1_delim_free (inv1 d hd)
    have hbr : bracketBad (pyLower s.netloc) = false := by
      rw [bracketBad_pyLower]
      exact inv2
    have hnlc : ∀ c ∈ pyLower s.netloc, ¬(c = 9 ∨ c = 13 ∨ c = 10) := by
      intro c hc
      simp only [pyLower, List.mem_map] at hc
      obtain ⟨d, hd, rfl⟩ := hc
      exact pyLower1_clean (scrubUrl_mem_clean (inv6 d (.inl hd)))
    have hpsh : pathNorm s.path = [] ∨ (pathNorm s.path).take 1 = [47] :=
      pathNorm_shape (inv3 hnlS)
    have hpd : ∀ c ∈ pathNorm s.path, c ≠ 35 ∧ c ≠ 63 :=
      fun c hc => inv4 c (pathNorm_mem hc)
    have hpc : ∀ c ∈ pathNorm s.path, ¬(c = 9 ∨ c = 13 ∨ c = 10) :=
      fun c hc => scrubUrl_mem_clean (inv6 c (.inr (.inl (pathNorm_mem hc))))
    obtain ⟨hrt, hlead⟩ := urlsplit_roundtrip inv5 hnl hnld hbr hpsh hpd hnlc hpc hq'
    have ew : normalize_url u = urlunsplit ⟨s.scheme, pyLower s.netloc, pathNorm s.path,
        urlencodeL (keptParams s.query), []⟩ := by
      simp only [normalize_url]
      rw [hsplit]
    rw [ew] at hws
    have hstr : pyStrip (urlunsplit ⟨s.scheme, pyLower s.netloc, pathNorm s.path,
        urlencodeL (keptParams s.query), []⟩) =
        urlunsplit ⟨s.scheme, pyLower s.netloc, pathNorm s.path,
          urlencodeL (keptParams s.query), []⟩ :=
      pyStrip_eq_of hlead (not_trailing_strip hws)
    rw [ew]
    simp only [normalize_url]
    rw [hstr, hrt]
    show urlunsplit ⟨s.scheme, pyLower (pyLower s.netloc), pathNorm (pathNorm s.path),
        urlencodeL (keptParams (urlencodeL (keptParams s.query))), []⟩ =
      urlunsplit ⟨s.scheme, pyLower s.netloc, pathNorm s.path,
        urlencodeL (keptParams s.query), []⟩
    rw [pyLower_idem, pathNorm_idem, keptParams_urlencodeL hqb]

/-- Claim C10, witness for the amended idempotence theorem at a concrete
URL satisfying its hypothesis. -/
theorem c10_normalize_idem_witness :
    normalizeIdemPreB (lit "https://Example.COM/a/?utm_source=x&b=1#f") = true ∧
    normalize_url (normalize_url (lit "https://Example.COM/a/?utm_source=x&b=1#f")) =
      normalize_url (lit "https://Example.COM/a/?utm_source=x&b=1#f") :=
  ⟨by decide, c10_normalize_idem _ (by decide)⟩

end VPF
